import Mathlib

/-!
Shallow embedding of the header-detection-and-reconciliation engine of the
`headercheck` repository (package `internal/engine`).  File contents are
modelled as lists of bytes (`List Nat`, each entry a byte value); Go string
and `bytes` operations are translated to explicit list recursions.  Byte
classification mirrors the ASCII behaviour of the Go standard library
(`strings.TrimSpace`, the RE2 character classes); bytes at or above 0x80 are
treated as non-space, which coincides with Go on all-ASCII content.
-/

/-- Bytes of a string literal, used only to build concrete test inputs. -/
def strBytes (s : String) : List Nat := s.toList.map Char.toNat

/-- ASCII decimal digit. -/
def isDigitB (c : Nat) : Bool := 48 ≤ c && c ≤ 57

/-- Date separator class (hyphen or slash) from the date-masking pattern. -/
def isSepB (c : Nat) : Bool := c = 45 || c = 47

/-- Hexadecimal digit `[0-9a-fA-F]`. -/
def isHexB (c : Nat) : Bool :=
  (48 ≤ c && c ≤ 57) || (97 ≤ c && c ≤ 102) || (65 ≤ c && c ≤ 70)

/-- ASCII letter `[A-Za-z]`. -/
def isAlphaB (c : Nat) : Bool := (65 ≤ c && c ≤ 90) || (97 ≤ c && c ≤ 122)

/-- RE2 word character `\w = [0-9A-Za-z_]`, used for `\b` boundaries. -/
def isWordB (c : Nat) : Bool :=
  (48 ≤ c && c ≤ 57) || (65 ≤ c && c ≤ 90) || (97 ≤ c && c ≤ 122) || c = 95

/-- Local-part class of the email pattern: `[A-Za-z0-9._%+-]`. -/
def isLocalB (c : Nat) : Bool :=
  isAlphaB c || isDigitB c || c = 46 || c = 95 || c = 37 || c = 43 || c = 45

/-- Domain class of the email pattern: `[A-Za-z0-9.-]`. -/
def isDomainB (c : Nat) : Bool :=
  isAlphaB c || isDigitB c || c = 46 || c = 45

/-- RE2 `\s` class: `[\t\n\f\r ]`. -/
def isWsReB (c : Nat) : Bool := c = 32 || c = 9 || c = 10 || c = 12 || c = 13

/-- The ASCII bytes trimmed by Go `strings.TrimSpace` (`unicode.IsSpace`). -/
def isSpaceGoB (c : Nat) : Bool :=
  c = 32 || c = 9 || c = 10 || c = 11 || c = 12 || c = 13

/-- Bytes trimmed by `bytes.Trim(..., "\n\r")`. -/
def isCrNlB (c : Nat) : Bool := c = 10 || c = 13

/-- Go `strings.TrimSpace` on ASCII bytes. -/
def trimSpace (s : List Nat) : List Nat :=
  ((s.dropWhile isSpaceGoB).reverse.dropWhile isSpaceGoB).reverse

/-- `bytes.Trim(s, "\n\r")`: trim newlines and carriage returns on both ends. -/
def trimCrNl (s : List Nat) : List Nat :=
  ((s.dropWhile isCrNlB).reverse.dropWhile isCrNlB).reverse

/-- `bytes.TrimRight(s, "\r\n")`: trim newlines and carriage returns on the right. -/
def trimCrNlRight (s : List Nat) : List Nat :=
  (s.reverse.dropWhile isCrNlB).reverse

/-- Whether `pat` is a prefix of `s` (Go `strings.HasPrefix` on bytes). -/
def beginsWith : List Nat → List Nat → Bool
  | [], _ => true
  | _ :: _, [] => false
  | p :: ps, c :: cs => p = c && beginsWith ps cs

/-- ASCII lower-casing of one byte (Go `strings.ToLower` on ASCII). -/
def toLowerB (c : Nat) : Nat := if 65 ≤ c ∧ c ≤ 90 then c + 32 else c

/-- Split off the first line of `s`, including its trailing newline byte when
present; models one `bufio` `ReadString of newline` step. -/
def takeLine : List Nat → List Nat × List Nat
  | [] => ([], [])
  | c :: r =>
    if c = 10 then ([10], r)
    else
      let p := takeLine r
      (c :: p.1, p.2)

theorem takeLine_fst_append_snd (s : List Nat) : (takeLine s).1 ++ (takeLine s).2 = s := by
  induction s with
  | nil => rfl
  | cons c r ih =>
    by_cases h : c = 10
    · simp [takeLine, h]
    · simp [takeLine, h, ih]

theorem takeLine_fst_length_pos (c : Nat) (r : List Nat) :
    0 < (takeLine (c :: r)).1.length := by
  by_cases h : c = 10 <;> simp [takeLine, h]

theorem takeLine_snd_length_le (s : List Nat) : (takeLine s).2.length ≤ s.length := by
  conv_rhs => rw [← takeLine_fst_append_snd s]
  simp

theorem takeLine_snd_length_lt (c : Nat) (r : List Nat) :
    (takeLine (c :: r)).2.length < (c :: r).length := by
  have h1 := takeLine_fst_append_snd (c :: r)
  have h2 := takeLine_fst_length_pos c r
  have : (takeLine (c :: r)).1.length + (takeLine (c :: r)).2.length = (c :: r).length := by
    rw [← List.length_append, h1]
  omega

/-- Fuel-driven body of `linesOf`; the fuel only serves structural recursion
and is irrelevant once it reaches the input length. -/
def linesOfF (fuel : Nat) (s : List Nat) : List (List Nat) :=
  match fuel, s with
  | _, [] => []
  | 0, _ :: _ => []
  | fuel + 1, c :: r => (takeLine (c :: r)).1 :: linesOfF fuel (takeLine (c :: r)).2

/-- The list of lines of `s` (each keeping its trailing newline when present). -/
def linesOf (s : List Nat) : List (List Nat) := linesOfF s.length s

theorem linesOfF_congr : ∀ f1 f2 s, s.length ≤ f1 → s.length ≤ f2 →
    linesOfF f1 s = linesOfF f2 s := by
  intro f1
  induction f1 with
  | zero =>
    intro f2 s h1 _
    have : s = [] := List.length_eq_zero.mp (Nat.le_zero.mp h1)
    subst this
    cases f2 <;> rfl
  | succ f ih =>
    intro f2 s h1 h2
    match s with
    | [] => cases f2 <;> rfl
    | c :: r =>
      match f2 with
      | 0 => simp at h2
      | g + 1 =>
        show (takeLine (c :: r)).1 :: linesOfF f (takeLine (c :: r)).2
          = (takeLine (c :: r)).1 :: linesOfF g (takeLine (c :: r)).2
        have hlt := takeLine_snd_length_lt c r
        simp only [List.length_cons] at hlt h1 h2
        rw [ih g (takeLine (c :: r)).2 (by omega) (by omega)]

theorem linesOf_cons (c : Nat) (r : List Nat) :
    linesOf (c :: r) = (takeLine (c :: r)).1 :: linesOf (takeLine (c :: r)).2 := by
  show linesOfF (c :: r).length (c :: r) = _
  have hlt := takeLine_snd_length_lt c r
  simp only [List.length_cons] at hlt
  rw [show (c :: r).length = r.length + 1 by simp]
  show (takeLine (c :: r)).1 :: linesOfF r.length (takeLine (c :: r)).2 = _
  rw [linesOfF_congr r.length (takeLine (c :: r)).2.length (takeLine (c :: r)).2
    (by omega) (le_refl _)]
  rfl

/-- First line of `s` (empty for empty input). -/
def firstLine (s : List Nat) : List Nat := (takeLine s).1

/-- Source `isLineComment`: a line is a comment (or blank) line if, after
trimming, it is empty or starts with one of the recognized markers. -/
def isLineComment (line : List Nat) : Bool :=
  let s := trimSpace line
  if s.isEmpty then true
  else if beginsWith (strBytes ("//")) s || beginsWith (strBytes ("#")) s
      || beginsWith (strBytes (";")) s then true
  else if beginsWith (strBytes ("/*")) s || beginsWith (strBytes ("*")) s
      || beginsWith (strBytes ("*/")) s then true
  else false

/-- Source `isGoPreambleDirective`: top-of-file pragmas that must stay above
any header (build constraints, generator pragmas, lint suppressions, and
`shellcheck` directives for shell scripts). -/
def isGoPreambleDirective (line : List Nat) : Bool :=
  let s := trimSpace line
  if !beginsWith (strBytes ("//")) s then
    if beginsWith (strBytes ("#")) s then
      beginsWith (strBytes ("shellcheck")) ((trimSpace (s.drop 1)).map toLowerB)
    else false
  else
    let s2 := trimSpace (s.drop 2)
    if s2.isEmpty then false
    else if beginsWith (strBytes ("go:")) s2 then true
    else if beginsWith (strBytes ("+build")) s2 then true
    else if beginsWith (strBytes ("nolint")) s2 then true
    else if beginsWith (strBytes ("lint:")) s2 then true
    else false

/-- Source `findShebangEnd`: end offset of a shebang line if present, else 0.
The shebang line runs through its trailing newline, or to end of content. -/
def findShebangEnd (content : List Nat) : Nat :=
  if beginsWith (strBytes ("#!")) content then (takeLine content).1.length else 0

/-- Fuel-driven body of `skipBD`. -/
def skipBDF (fuel : Nat) (s : List Nat) : Nat :=
  match fuel, s with
  | _, [] => 0
  | 0, _ :: _ => 0
  | fuel + 1, c :: r =>
    let line := (takeLine (c :: r)).1
    if (trimSpace line).isEmpty || isGoPreambleDirective line then
      line.length + skipBDF fuel (takeLine (c :: r)).2
    else 0

/-- Number of leading bytes of `s` made of blank lines and preamble-directive
lines; models the loop of source `skipBlankAndDirectives` on the suffix. -/
def skipBD (s : List Nat) : Nat := skipBDF s.length s

theorem skipBDF_congr : ∀ f1 f2 s, s.length ≤ f1 → s.length ≤ f2 →
    skipBDF f1 s = skipBDF f2 s := by
  intro f1
  induction f1 with
  | zero =>
    intro f2 s h1 _
    have : s = [] := List.length_eq_zero.mp (Nat.le_zero.mp h1)
    subst this
    cases f2 <;> rfl
  | succ f ih =>
    intro f2 s h1 h2
    match s with
    | [] => cases f2 <;> rfl
    | c :: r =>
      match f2 with
      | 0 => simp at h2
      | g + 1 =>
        have hlt := takeLine_snd_length_lt c r
        simp only [List.length_cons] at hlt h1 h2
        show (if ((trimSpace (takeLine (c :: r)).1).isEmpty
              || isGoPreambleDirective (takeLine (c :: r)).1) = true then
            (takeLine (c :: r)).1.length + skipBDF f (takeLine (c :: r)).2 else 0) = _
        rw [ih g (takeLine (c :: r)).2 (by omega) (by omega)]
        rfl

theorem skipBD_cons (c : Nat) (r : List Nat) :
    skipBD (c :: r) =
      (if ((trimSpace (takeLine (c :: r)).1).isEmpty
          || isGoPreambleDirective (takeLine (c :: r)).1) = true then
        (takeLine (c :: r)).1.length + skipBD (takeLine (c :: r)).2 else 0) := by
  show skipBDF (c :: r).length (c :: r) = _
  have hlt := takeLine_snd_length_lt c r
  simp only [List.length_cons] at hlt
  rw [show (c :: r).length = r.length + 1 by simp]
  show (if ((trimSpace (takeLine (c :: r)).1).isEmpty
      || isGoPreambleDirective (takeLine (c :: r)).1) = true then
    (takeLine (c :: r)).1.length + skipBDF r.length (takeLine (c :: r)).2 else 0) = _
  rw [skipBDF_congr r.length (takeLine (c :: r)).2.length (takeLine (c :: r)).2
    (by omega) (le_refl _)]
  rfl

/-- Source `skipBlankAndDirectives`: advance `pos` past blank and directive lines. -/
def skipBlankAndDirectives (content : List Nat) (pos : Nat) : Nat :=
  pos + skipBD (content.drop pos)

/-- Fuel-driven body of `collectHeader`. -/
def collectHeaderF (fuel : Nat) (s : List Nat) : List Nat :=
  match fuel, s with
  | _, [] => []
  | 0, _ :: _ => []
  | fuel + 1, c :: r =>
    let line := (takeLine (c :: r)).1
    if !(trimSpace line).isEmpty && !isLineComment line then []
    else if isGoPreambleDirective line then []
    else line ++ collectHeaderF fuel (takeLine (c :: r)).2

/-- The accumulation loop of source `detectHeaderBlock`: collect consecutive
blank or comment lines, stopping at the first code line or directive line. -/
def collectHeader (s : List Nat) : List Nat := collectHeaderF s.length s

theorem collectHeaderF_congr : ∀ f1 f2 s, s.length ≤ f1 → s.length ≤ f2 →
    collectHeaderF f1 s = collectHeaderF f2 s := by
  intro f1
  induction f1 with
  | zero =>
    intro f2 s h1 _
    have : s = [] := List.length_eq_zero.mp (Nat.le_zero.mp h1)
    subst this
    cases f2 <;> rfl
  | succ f ih =>
    intro f2 s h1 h2
    match s with
    | [] => cases f2 <;> rfl
    | c :: r =>
      match f2 with
      | 0 => simp at h2
      | g + 1 =>
        have hlt := takeLine_snd_length_lt c r
        simp only [List.length_cons] at hlt h1 h2
        show (if (!(trimSpace (takeLine (c :: r)).1).isEmpty
              && !isLineComment (takeLine (c :: r)).1) = true then []
            else if isGoPreambleDirective (takeLine (c :: r)).1 = true then []
            else (takeLine (c :: r)).1 ++ collectHeaderF f (takeLine (c :: r)).2) = _
        rw [ih g (takeLine (c :: r)).2 (by omega) (by omega)]
        rfl

theorem collectHeader_cons (c : Nat) (r : List Nat) :
    collectHeader (c :: r) =
      (if (!(trimSpace (takeLine (c :: r)).1).isEmpty
          && !isLineComment (takeLine (c :: r)).1) = true then []
      else if isGoPreambleDirective (takeLine (c :: r)).1 = true then []
      else (takeLine (c :: r)).1 ++ collectHeader (takeLine (c :: r)).2) := by
  show collectHeaderF (c :: r).length (c :: r) = _
  have hlt := takeLine_snd_length_lt c r
  simp only [List.length_cons] at hlt
  rw [show (c :: r).length = r.length + 1 by simp]
  show (if (!(trimSpace (takeLine (c :: r)).1).isEmpty
      && !isLineComment (takeLine (c :: r)).1) = true then []
    else if isGoPreambleDirective (takeLine (c :: r)).1 = true then []
    else (takeLine (c :: r)).1 ++ collectHeaderF r.length (takeLine (c :: r)).2) = _
  rw [collectHeaderF_congr r.length (takeLine (c :: r)).2.length (takeLine (c :: r)).2
    (by omega) (le_refl _)]
  rfl

/-- Source `detectHeaderBlock`: extract the leading header comment block with
its byte offsets, after skipping a shebang and any directive or blank lines.
Returns `(bytes, start, end)`; when the block is empty it returns `(nil, 0, 0)`. -/
def detectHeaderBlock (content : List Nat) : List Nat × Nat × Nat :=
  let pos := skipBlankAndDirectives content (findShebangEnd content)
  let hdr := collectHeader (content.drop pos)
  if hdr.isEmpty then ([], 0, 0) else (hdr, pos, pos + hdr.length)

/-- Source `headersStructurallyEqual`: equal up to trailing newlines. -/
def headersStructurallyEqual (a b : List Nat) : Bool :=
  trimCrNlRight a == trimCrNlRight b

/-!
Semantic masking (source `headerSemanticallyMatches`).  Each of the five
regular-expression passes of the Go code is modelled by a scanner that finds
successive leftmost matches in the input and substitutes a fixed placeholder,
exactly as `regexp.ReplaceAllString` does (matching is performed on the
original text; replacements are not rescanned within one pass).  `Eat`
functions consume a pattern fragment from the head of the remaining input.
-/

/-- A pattern fragment: consume some bytes from the head, return the rest. -/
abbrev Eat : Type := List Nat → Option (List Nat)

/-- Consume exactly `n` decimal digits. -/
def eatDigits : Nat → Eat
  | 0, s => some s
  | _ + 1, [] => Option.none
  | n + 1, c :: r => if isDigitB c then eatDigits n r else Option.none

/-- Consume one date separator byte (hyphen or slash). -/
def eatSep : Eat
  | c :: r => if isSepB c then some r else Option.none
  | [] => Option.none

/-- Consume one fixed byte. -/
def eatByte (t : Nat) : Eat
  | c :: r => if c = t then some r else Option.none
  | [] => Option.none

/-- Consume the alternative `(19|20)` opening a year token. -/
def eatYearPfx : Eat
  | a :: b :: r => if (a = 49 ∧ b = 57) ∨ (a = 50 ∧ b = 48) then some r else Option.none
  | [] => Option.none
  | [_] => Option.none

/-- Sequencing of pattern fragments. -/
def eatSeq (f g : Eat) : Eat := fun s => (f s).bind g

/-- Preference-ordered alternation of pattern fragments (first success wins),
matching the backtracking preference of a leftmost-first regex engine. -/
def eatAlt (f g : Eat) : Eat := fun s =>
  match f s with
  | some r => some r
  | Option.none => g s

/-- Word-boundary condition before a match whose first byte is a word byte:
the preceding original byte, if any, must not be a word byte. -/
def boundaryStartOk (prev : Option Nat) : Bool :=
  match prev with
  | Option.none => true
  | some p => !isWordB p

/-- Word-boundary condition after a match whose last byte is a word byte:
the following original byte, if any, must not be a word byte. -/
def boundaryEndOk (s : List Nat) : Bool :=
  match s with
  | [] => true
  | c :: _ => !isWordB c

/-- Require a trailing word boundary after the fragment. -/
def guardEnd (f : Eat) : Eat := fun s =>
  match f s with
  | some r => if boundaryEndOk r then some r else Option.none
  | Option.none => Option.none

/-- Optional date separator: greedy `?` tries the separator first. -/
def maybeSep (b : Bool) : Eat := if b then eatSep else fun s => some s

/-- One alternative of the date pattern body, with the separators present as
dictated by the two flags. -/
def dateEatFull (b1 b2 : Bool) : Eat :=
  eatSeq (eatDigits 4) (eatSeq (maybeSep b1)
    (eatSeq (eatDigits 2) (eatSeq (maybeSep b2) (eatDigits 2))))

/-- Body of the date pattern with trailing boundary, alternatives in the
greedy preference order of the two optional separators. -/
def dateEat : Eat :=
  eatAlt (guardEnd (dateEatFull true true))
    (eatAlt (guardEnd (dateEatFull true false))
      (eatAlt (guardEnd (dateEatFull false true)) (guardEnd (dateEatFull false false))))

/-- Body of the time pattern `HH:MM:SS` with trailing boundary. -/
def timeEat : Eat :=
  guardEnd (eatSeq (eatDigits 2) (eatSeq (eatByte 58)
    (eatSeq (eatDigits 2) (eatSeq (eatByte 58) (eatDigits 2)))))

/-- Body of the year pattern `(19|20)` followed by two digits, with boundary. -/
def yearEat : Eat := guardEnd (eatSeq eatYearPfx (eatDigits 2))

/-- Turn a boundary-guarded fragment into a matcher: at the current position,
with `prev` the preceding original byte, return the match length if the
fragment matches here with a word boundary on each side. -/
def mkBoundedMatcher (f : Eat) (prev : Option Nat) (s : List Nat) : Option Nat :=
  if boundaryStartOk prev then
    match f s with
    | some r => some (s.length - r.length)
    | Option.none => Option.none
  else Option.none

/-- Matcher for the date pattern. -/
def dateM (prev : Option Nat) (s : List Nat) : Option Nat := mkBoundedMatcher dateEat prev s

/-- Matcher for the time pattern. -/
def timeM (prev : Option Nat) (s : List Nat) : Option Nat := mkBoundedMatcher timeEat prev s

/-- Matcher for the year pattern. -/
def yearM (prev : Option Nat) (s : List Nat) : Option Nat := mkBoundedMatcher yearEat prev s

/-- Matcher for the hash pattern: a maximal hexadecimal run of 7 to 40 bytes
delimited by word boundaries.  A longer run cannot match (every shorter cut
ends next to another hex byte, violating the trailing boundary). -/
def hashM (prev : Option Nat) (s : List Nat) : Option Nat :=
  if boundaryStartOk prev then
    let m := (s.takeWhile isHexB).length
    if 7 ≤ m ∧ m ≤ 40 ∧ boundaryEndOk (s.drop m) = true then some m else Option.none
  else Option.none

/-- Whether index `j` of the maximal domain run can host the final dot of an
email match: a dot with at least two letters after it. -/
def dotOk (mr : List Nat) (j : Nat) : Bool :=
  (mr.get? j == some 46) && isAlphaAtB mr (j + 1) && isAlphaAtB mr (j + 2)
where
  isAlphaAtB (mr : List Nat) (i : Nat) : Bool :=
    match mr.get? i with
    | some c => isAlphaB c
    | Option.none => false

/-- Largest index `j` with `1 ≤ j ≤ start` such that `dotOk mr j`, i.e. the
greedy (longest `domain+`) choice of the final dot. -/
def bestDotAux (mr : List Nat) : Nat → Option Nat
  | 0 => Option.none
  | j + 1 => if dotOk mr (j + 1) then some (j + 1) else bestDotAux mr j

/-- Greedy choice of the final dot within the maximal domain run. -/
def bestDot (mr : List Nat) : Option Nat := bestDotAux mr (mr.length - 1)

/-- Length matched by `domain+ dot letters` after the at-sign, following the
greedy preference (longest domain part, then maximal letter run). -/
def emailDomainLen (r2 : List Nat) : Option Nat :=
  let mr := r2.takeWhile isDomainB
  match bestDot mr with
  | some j => some (j + 1 + ((mr.drop (j + 1)).takeWhile isAlphaB).length)
  | Option.none => Option.none

/-- Matcher for the email pattern (no word boundaries in the Go pattern).
The local part is forced to its maximal run because the at-sign is not a
local-part byte, so no backtracking arises there. -/
def emailM (_ : Option Nat) (s : List Nat) : Option Nat :=
  let lr := s.takeWhile isLocalB
  if lr.isEmpty then Option.none
  else
    match s.drop lr.length with
    | 64 :: r2 =>
      match emailDomainLen r2 with
      | some dl => some (lr.length + 1 + dl)
      | Option.none => Option.none
    | _ => Option.none

/-- One `ReplaceAllString` pass: scan left to right over the original input,
replacing each successive leftmost match of `m` by `repl`; `prev` is the
original byte preceding the current position (for boundary tests). -/
def runMaskF (m : Option Nat → List Nat → Option Nat) (repl : List Nat) :
    Nat → Option Nat → List Nat → List Nat
  | _, _, [] => []
  | 0, _, _ :: _ => []
  | fuel + 1, prev, c :: rest =>
    match m prev (c :: rest) with
    | Option.none => c :: runMaskF m repl fuel (some c) rest
    | some k =>
      repl ++ runMaskF m repl fuel (((c :: rest).take (max k 1)).getLast?)
        (rest.drop (max k 1 - 1))

def runMask (m : Option Nat → List Nat → Option Nat) (repl : List Nat)
    (prev : Option Nat) (s : List Nat) : List Nat :=
  runMaskF m repl s.length prev s

theorem runMaskF_congr (m : Option Nat → List Nat → Option Nat) (repl : List Nat) :
    ∀ f1 f2 prev s, s.length ≤ f1 → s.length ≤ f2 →
      runMaskF m repl f1 prev s = runMaskF m repl f2 prev s := by
  intro f1
  induction f1 with
  | zero =>
    intro f2 prev s h1 _
    have : s = [] := List.length_eq_zero.mp (Nat.le_zero.mp h1)
    subst this
    cases f2 <;> rfl
  | succ f ih =>
    intro f2 prev s h1 h2
    match s with
    | [] => cases f2 <;> rfl
    | c :: rest =>
      match f2 with
      | 0 => simp at h2
      | g + 1 =>
        simp only [List.length_cons] at h1 h2
        show (match m prev (c :: rest) with
          | Option.none => c :: runMaskF m repl f (some c) rest
          | some k =>
            repl ++ runMaskF m repl f (((c :: rest).take (max k 1)).getLast?)
              (rest.drop (max k 1 - 1)))
          = (match m prev (c :: rest) with
          | Option.none => c :: runMaskF m repl g (some c) rest
          | some k =>
            repl ++ runMaskF m repl g (((c :: rest).take (max k 1)).getLast?)
              (rest.drop (max k 1 - 1)))
        cases hm : m prev (c :: rest) with
        | none =>
          simp only []
          rw [ih g (some c) rest (by omega) (by omega)]
        | some k =>
          simp only []
          rw [ih g (((c :: rest).take (max k 1)).getLast?) (rest.drop (max k 1 - 1))
            (by simp only [List.length_drop]; omega)
            (by simp only [List.length_drop]; omega)]

theorem runMask_cons (m : Option Nat → List Nat → Option Nat) (repl : List Nat)
    (prev : Option Nat) (c : Nat) (rest : List Nat) :
    runMask m repl prev (c :: rest) =
      (match m prev (c :: rest) with
      | Option.none => c :: runMask m repl (some c) rest
      | some k =>
        repl ++ runMask m repl (((c :: rest).take (max k 1)).getLast?)
          (rest.drop (max k 1 - 1))) := by
  show runMaskF m repl (c :: rest).length prev (c :: rest) = _
  rw [show (c :: rest).length = rest.length + 1 by simp]
  show (match m prev (c :: rest) with
    | Option.none => c :: runMaskF m repl rest.length (some c) rest
    | some k =>
      repl ++ runMaskF m repl rest.length (((c :: rest).take (max k 1)).getLast?)
        (rest.drop (max k 1 - 1))) = _
  cases hm : m prev (c :: rest) with
  | none => rfl
  | some k =>
    simp only []
    rw [runMaskF_congr m repl rest.length (rest.drop (max k 1 - 1)).length
      (((c :: rest).take (max k 1)).getLast?) (rest.drop (max k 1 - 1))
      (by simp only [List.length_drop]; omega) (le_refl _)]
    rfl

/-- The date-masking pass. -/
def maskDate (s : List Nat) : List Nat := runMask dateM (strBytes ("<DATE>")) Option.none s

/-- The time-masking pass. -/
def maskTime (s : List Nat) : List Nat := runMask timeM (strBytes ("<TIME>")) Option.none s

/-- The email-masking pass. -/
def maskEmail (s : List Nat) : List Nat := runMask emailM (strBytes ("<EMAIL>")) Option.none s

/-- The hash-masking pass. -/
def maskHash (s : List Nat) : List Nat := runMask hashM (strBytes ("<HASH>")) Option.none s

/-- The year-masking pass. -/
def maskYear (s : List Nat) : List Nat := runMask yearM (strBytes ("<YEAR>")) Option.none s

theorem dropWhile_length_le (p : Nat → Bool) (l : List Nat) :
    (l.dropWhile p).length ≤ l.length := by
  induction l with
  | nil => simp [List.dropWhile]
  | cons a t ih =>
    by_cases h : p a
    · simp only [List.dropWhile_cons_of_pos h]
      exact Nat.le_succ_of_le ih
    · simp [List.dropWhile_cons_of_neg h]

/-- Fuel-driven body of `collapseWs`. -/
def collapseWsF : Nat → List Nat → List Nat
  | _, [] => []
  | 0, _ :: _ => []
  | fuel + 1, c :: rest =>
    if isWsReB c then 32 :: collapseWsF fuel (rest.dropWhile isWsReB)
    else c :: collapseWsF fuel rest

/-- Collapse every run of regex whitespace to a single space byte. -/
def collapseWs (s : List Nat) : List Nat := collapseWsF s.length s

theorem collapseWsF_congr : ∀ f1 f2 s, s.length ≤ f1 → s.length ≤ f2 →
    collapseWsF f1 s = collapseWsF f2 s := by
  intro f1
  induction f1 with
  | zero =>
    intro f2 s h1 _
    have : s = [] := List.length_eq_zero.mp (Nat.le_zero.mp h1)
    subst this
    cases f2 <;> rfl
  | succ f ih =>
    intro f2 s h1 h2
    match s with
    | [] => cases f2 <;> rfl
    | c :: rest =>
      match f2 with
      | 0 => simp at h2
      | g + 1 =>
        simp only [List.length_cons] at h1 h2
        have hdw := dropWhile_length_le isWsReB rest
        show (if isWsReB c = true then 32 :: collapseWsF f (rest.dropWhile isWsReB)
          else c :: collapseWsF f rest)
          = (if isWsReB c = true then 32 :: collapseWsF g (rest.dropWhile isWsReB)
          else c :: collapseWsF g rest)
        by_cases hc : isWsReB c = true
        · simp only [hc, if_pos]
          rw [ih g (rest.dropWhile isWsReB) (by omega) (by omega)]
        · simp only [hc, Bool.false_eq_true, if_false]
          rw [ih g rest (by omega) (by omega)]

theorem collapseWs_cons (c : Nat) (rest : List Nat) :
    collapseWs (c :: rest) =
      (if isWsReB c = true then 32 :: collapseWs (rest.dropWhile isWsReB)
      else c :: collapseWs rest) := by
  show collapseWsF (c :: rest).length (c :: rest) = _
  rw [show (c :: rest).length = rest.length + 1 by simp]
  have hdw := dropWhile_length_le isWsReB rest
  show (if isWsReB c = true then 32 :: collapseWsF rest.length (rest.dropWhile isWsReB)
    else c :: collapseWsF rest.length rest) = _
  by_cases hc : isWsReB c = true
  · simp only [hc, if_pos]
    rw [collapseWsF_congr rest.length (rest.dropWhile isWsReB).length
      (rest.dropWhile isWsReB) (by omega) (le_refl _)]
    rfl
  · simp only [hc, Bool.false_eq_true, if_false]
    rfl

/-- The masking transform of source `headerSemanticallyMatches`: the five
token-masking passes in source order, whitespace collapsing, and trimming. -/
def sanitize (s : List Nat) : List Nat :=
  trimSpace (collapseWs (maskYear (maskHash (maskEmail (maskTime (maskDate s))))))

/-- Source `headerSemanticallyMatches`: false when either header is empty,
otherwise byte equality of the masked forms. -/
def headerSemanticallyMatches (existing expected : List Nat) : Bool :=
  if existing.isEmpty || expected.isEmpty then false
  else sanitize existing == sanitize expected

/-!
Rewrite planner (source `upsertHeaderBeforeDirectives`) and per-file decision
policy (source `processFile` with its helpers).  Path handling, template
rendering and disk I/O are external to the byte-level logic: the model takes
the already-rendered and already-filtered template list and represents the
write as the returned byte content.  Write errors are not modelled (writes
always succeed).
-/

/-- Continuation test of the first top-comment scan in
`upsertHeaderBeforeDirectives` (used when no existing header is removed): a
line continues the block when it is blank or its trimmed form starts with a
comment marker from the explicit list used there. -/
def scanTop1Line (line : List Nat) : Bool :=
  let t := trimSpace line
  t.isEmpty || beginsWith (strBytes ("//")) t || beginsWith (strBytes ("#")) t
    || beginsWith (strBytes ("/*")) t || beginsWith (strBytes ("*")) t

/-- Continuation test of the second top-comment scan (used after removing an
existing header): blank or `isLineComment`. -/
def scanTop2Line (line : List Nat) : Bool :=
  (trimSpace line).isEmpty || isLineComment line

/-- Fuel-driven line scan: number of leading bytes of `s` made of lines
accepted by `ok`. -/
def scanTopF (ok : List Nat → Bool) : Nat → List Nat → Nat
  | _, [] => 0
  | 0, _ :: _ => 0
  | fuel + 1, c :: r =>
    let line := (takeLine (c :: r)).1
    if ok line then line.length + scanTopF ok fuel (takeLine (c :: r)).2
    else 0

theorem scanTopF_congr (ok : List Nat → Bool) : ∀ f1 f2 s, s.length ≤ f1 → s.length ≤ f2 →
    scanTopF ok f1 s = scanTopF ok f2 s := by
  intro f1
  induction f1 with
  | zero =>
    intro f2 s h1 _
    have : s = [] := List.length_eq_zero.mp (Nat.le_zero.mp h1)
    subst this
    cases f2 <;> rfl
  | succ f ih =>
    intro f2 s h1 h2
    match s with
    | [] => cases f2 <;> rfl
    | c :: r =>
      match f2 with
      | 0 => simp at h2
      | g + 1 =>
        have hlt := takeLine_snd_length_lt c r
        simp only [List.length_cons] at hlt h1 h2
        show (if ok (takeLine (c :: r)).1 = true then
            (takeLine (c :: r)).1.length + scanTopF ok f (takeLine (c :: r)).2 else 0) = _
        rw [ih g (takeLine (c :: r)).2 (by omega) (by omega)]
        rfl

/-- First scan for top-of-file comments in `upsertHeaderBeforeDirectives`. -/
def scanTopComments1 (s : List Nat) : Nat := scanTopF scanTop1Line s.length s

/-- Second scan for top-of-file comments in `upsertHeaderBeforeDirectives`. -/
def scanTopComments2 (s : List Nat) : Nat := scanTopF scanTop2Line s.length s

theorem scanTopF_run_cons (ok : List Nat → Bool) (c : Nat) (r : List Nat) :
    scanTopF ok (c :: r).length (c :: r) =
      (if ok (takeLine (c :: r)).1 = true then
        (takeLine (c :: r)).1.length + scanTopF ok (takeLine (c :: r)).2.length (takeLine (c :: r)).2
      else 0) := by
  have hlt := takeLine_snd_length_lt c r
  simp only [List.length_cons] at hlt
  rw [show (c :: r).length = r.length + 1 by simp]
  show (if ok (takeLine (c :: r)).1 = true then
    (takeLine (c :: r)).1.length + scanTopF ok r.length (takeLine (c :: r)).2 else 0) = _
  rw [scanTopF_congr ok r.length (takeLine (c :: r)).2.length (takeLine (c :: r)).2
    (by omega) (le_refl _)]

/-- Reassembly step of `upsertHeaderBeforeDirectives`, operating on the
content after any existing-header removal: shebang, one blank line after a
shebang, the header, exactly one blank line, then the trimmed directive
block, the trimmed relocated comment block and the trimmed preserved header
(each followed by one blank line when non-empty), then the rest. -/
def upsertAssemble (scanTop : List Nat → Nat) (content header preserved : List Nat) :
    List Nat :=
  let se := findShebangEnd content
  let middle := content.drop se
  let ds := skipBD middle
  let dirs := middle.take ds
  let ce := scanTop (middle.drop ds)
  let top := (middle.drop ds).take ce
  let rest := middle.drop (ds + ce)
  content.take se
    ++ (if 0 < se then [10] else [])
    ++ header
    ++ (if header.getLast? = some 10 then [] else [10])
    ++ [10]
    ++ (if (trimCrNl dirs).isEmpty then [] else trimCrNl dirs ++ [10, 10])
    ++ (if (trimCrNl top).isEmpty then [] else trimCrNl top ++ [10, 10])
    ++ (if (trimSpace preserved).isEmpty then [] else trimCrNl preserved ++ [10, 10])
    ++ rest

/-- Source `upsertHeaderBeforeDirectives`: place `header` below any shebang
and above relocated directives; an existing detected header in the
post-shebang region is removed first and, when `preserveExisting` is set,
re-appended below the new header and directive block. -/
def upsertHeaderBeforeDirectives (content header : List Nat) (preserveExisting : Bool) :
    List Nat :=
  let d := detectHeaderBlock content
  if !d.1.isEmpty && findShebangEnd content ≤ d.2.1 then
    upsertAssemble scanTopComments2
      (content.take d.2.1 ++ content.drop d.2.2)
      header
      (if preserveExisting then d.1 else [])
  else
    upsertAssemble scanTopComments1 content header []

/-- Fuel-driven body of `utf8Valid`; each step consumes at least one byte, so
fuel equal to the input length never runs out. Missing continuation bytes are
probed as the out-of-range value 256, which fails every range test. -/
def utf8ValidF : Nat → List Nat → Bool
  | _, [] => true
  | 0, _ :: _ => false
  | fuel + 1, c :: r =>
    if c < 128 then utf8ValidF fuel r
    else if 194 ≤ c ∧ c ≤ 223 then
      (128 ≤ r.headD 256 && r.headD 256 ≤ 191) && utf8ValidF fuel (r.drop 1)
    else if c = 224 then
      (160 ≤ r.headD 256 && r.headD 256 ≤ 191)
        && (128 ≤ (r.drop 1).headD 256 && (r.drop 1).headD 256 ≤ 191)
        && utf8ValidF fuel (r.drop 2)
    else if 225 ≤ c ∧ c ≤ 236 then
      (128 ≤ r.headD 256 && r.headD 256 ≤ 191)
        && (128 ≤ (r.drop 1).headD 256 && (r.drop 1).headD 256 ≤ 191)
        && utf8ValidF fuel (r.drop 2)
    else if c = 237 then
      (128 ≤ r.headD 256 && r.headD 256 ≤ 159)
        && (128 ≤ (r.drop 1).headD 256 && (r.drop 1).headD 256 ≤ 191)
        && utf8ValidF fuel (r.drop 2)
    else if 238 ≤ c ∧ c ≤ 239 then
      (128 ≤ r.headD 256 && r.headD 256 ≤ 191)
        && (128 ≤ (r.drop 1).headD 256 && (r.drop 1).headD 256 ≤ 191)
        && utf8ValidF fuel (r.drop 2)
    else if c = 240 then
      (144 ≤ r.headD 256 && r.headD 256 ≤ 191)
        && (128 ≤ (r.drop 1).headD 256 && (r.drop 1).headD 256 ≤ 191)
        && (128 ≤ (r.drop 2).headD 256 && (r.drop 2).headD 256 ≤ 191)
        && utf8ValidF fuel (r.drop 3)
    else if 241 ≤ c ∧ c ≤ 243 then
      (128 ≤ r.headD 256 && r.headD 256 ≤ 191)
        && (128 ≤ (r.drop 1).headD 256 && (r.drop 1).headD 256 ≤ 191)
        && (128 ≤ (r.drop 2).headD 256 && (r.drop 2).headD 256 ≤ 191)
        && utf8ValidF fuel (r.drop 3)
    else if c = 244 then
      (128 ≤ r.headD 256 && r.headD 256 ≤ 143)
        && (128 ≤ (r.drop 1).headD 256 && (r.drop 1).headD 256 ≤ 191)
        && (128 ≤ (r.drop 2).headD 256 && (r.drop 2).headD 256 ≤ 191)
        && utf8ValidF fuel (r.drop 3)
    else false

/-- Go `utf8.Valid` on a byte list: after an ASCII byte, continue; after a
multi-byte lead, check the continuation bytes against the acceptance ranges
of the Go standard library (RFC 3629: leads C2..DF, E0/E1..EC/ED/EE..EF,
F0/F1..F3/F4 with their restricted first continuations), then continue. -/
def utf8Valid (s : List Nat) : Bool := utf8ValidF s.length s

/-- The per-file action of a `FileResult` (source type `Action`; renamed since `Action` is taken in the ambient library). -/
inductive FileAction where
  | act_none
  | act_insert
  | act_replace
  | act_remove
deriving DecidableEq, Repr

/-- Source `findMatchingTemplateIndex`, restricted to an already
path-filtered template list (as `processFile` passes it): the first rendered
template the current header semantically matches, if any.  Returning the
matched template itself is equivalent to returning its index, which the
source only uses to select this template. -/
def findMatchingTemplate (hdr : List Nat) : List (List Nat) → Option (List Nat)
  | [] => Option.none
  | t :: ts => if headerSemanticallyMatches hdr t then some t else findMatchingTemplate hdr ts

/-- Source `shouldSkipDueToGit`: skip when the respect-git option is on, a
git collaborator is present, and the file is not touched. -/
def shouldSkipDueToGit (respectGit gitSome touched : Bool) : Bool :=
  respectGit && gitSome && !touched

/-- Source `handleMatchedHeader` as a pure function: returns the action, the
resulting file bytes (unchanged when no write happens) and the warning flag. -/
def handleMatchedHeader (fix respectGit gitSome touched : Bool)
    (currentHeader rendered content : List Nat) : FileAction × List Nat × Bool :=
  if !fix then (FileAction.act_none, content, false)
  else if currentHeader == rendered then (FileAction.act_none, content, false)
  else if headersStructurallyEqual currentHeader rendered then (FileAction.act_none, content, false)
  else if headerSemanticallyMatches currentHeader rendered
      && shouldSkipDueToGit respectGit gitSome touched then
    (FileAction.act_none, content, false)
  else (FileAction.act_replace, upsertHeaderBeforeDirectives content rendered true, false)

/-- Source `handleNoMatch` as a pure function. -/
def handleNoMatch (fix : Bool) (currentHeader content : List Nat)
    (trules : List (List Nat)) : FileAction × List Nat × Bool :=
  if trules.isEmpty then (FileAction.act_none, content, false)
  else if fix then
    ((if currentHeader.isEmpty then FileAction.act_insert else FileAction.act_replace),
      upsertHeaderBeforeDirectives content (trules.headD []) true, false)
  else if !currentHeader.isEmpty then (FileAction.act_replace, content, false)
  else (FileAction.act_insert, content, false)

/-- Source `processFile` as a pure function over the byte-level inputs:
`isTmplPath` abstracts `isTemplatePath`, `accepted` abstracts
`hasAnyTemplateForPath`, and `templates` is the rendered and path-filtered
template list (`filterTemplatesForPath` applied to `renderTemplates`).
Returns the action, the resulting file bytes, and the warning flag. -/
def processFile (isTmplPath accepted force fix respectGit gitSome touched : Bool)
    (templates : List (List Nat)) (content : List Nat) : FileAction × List Nat × Bool :=
  if isTmplPath then (FileAction.act_none, content, false)
  else if !accepted then (FileAction.act_none, content, false)
  else if !utf8Valid content then
    (FileAction.act_none, content, force)
  else if templates.isEmpty then (FileAction.act_none, content, false)
  else
    let hdr := (detectHeaderBlock content).1
    match findMatchingTemplate hdr templates with
    | some t => handleMatchedHeader fix respectGit gitSome touched hdr t content
    | Option.none => handleNoMatch fix hdr content templates

/-!
Structural lemmas about the header locator.
-/

theorem takeLine_fst_length_le (s : List Nat) : (takeLine s).1.length ≤ s.length := by
  conv_rhs => rw [← takeLine_fst_append_snd s]
  simp

theorem takeLine_length_split (s : List Nat) :
    (takeLine s).1.length + (takeLine s).2.length = s.length := by
  rw [← List.length_append, takeLine_fst_append_snd]

theorem collectHeader_isPrefix_aux : ∀ n s, s.length ≤ n → collectHeader s <+: s := by
  intro n
  induction n with
  | zero =>
    intro s h
    have : s = [] := List.length_eq_zero.mp (Nat.le_zero.mp h)
    subst this
    simp [collectHeader, collectHeaderF]
  | succ n ih =>
    intro s h
    match s with
    | [] => simp [collectHeader, collectHeaderF]
    | c :: r =>
      rw [collectHeader_cons]
      by_cases h1 : (!(trimSpace (takeLine (c :: r)).1).isEmpty
          && !isLineComment (takeLine (c :: r)).1) = true
      · simp only [h1, if_pos]
        exact List.nil_prefix
      · simp only [h1, Bool.false_eq_true, if_false]
        by_cases h2 : isGoPreambleDirective (takeLine (c :: r)).1 = true
        · simp only [h2, if_pos]
          exact List.nil_prefix
        · simp only [h2, Bool.false_eq_true, if_false]
          have hlt := takeLine_snd_length_lt c r
          simp only [List.length_cons] at hlt h
          obtain ⟨t, ht⟩ := ih (takeLine (c :: r)).2 (by omega)
          refine ⟨t, ?_⟩
          rw [List.append_assoc, ht, takeLine_fst_append_snd]

theorem collectHeader_isPrefix (s : List Nat) : collectHeader s <+: s :=
  collectHeader_isPrefix_aux s.length s (le_refl _)

theorem skipBD_le_aux : ∀ n s, s.length ≤ n → skipBD s ≤ s.length := by
  intro n
  induction n with
  | zero =>
    intro s h
    have : s = [] := List.length_eq_zero.mp (Nat.le_zero.mp h)
    subst this
    simp [skipBD, skipBDF]
  | succ n ih =>
    intro s h
    match s with
    | [] => simp [skipBD, skipBDF]
    | c :: r =>
      rw [skipBD_cons]
      by_cases hb : ((trimSpace (takeLine (c :: r)).1).isEmpty
          || isGoPreambleDirective (takeLine (c :: r)).1) = true
      · simp only [hb, if_pos]
        have hs := takeLine_length_split (c :: r)
        have hlt := takeLine_snd_length_lt c r
        simp only [List.length_cons] at hlt h hs
        have := ih (takeLine (c :: r)).2 (by omega)
        simp only [List.length_cons]
        omega
      · simp [hb]

theorem skipBD_le (s : List Nat) : skipBD s ≤ s.length :=
  skipBD_le_aux s.length s (le_refl _)

theorem findShebangEnd_le (c : List Nat) : findShebangEnd c ≤ c.length := by
  rw [findShebangEnd]
  by_cases h : beginsWith (strBytes ("#!")) c = true
  · simp only [h, if_pos]
    exact takeLine_fst_length_le c
  · simp [h]

/-- Claim C9: for every content, the region returned by `detectHeaderBlock`
satisfies `start ≤ end`, both offsets lie in `[0, length content]`, the
returned header bytes are exactly the slice `content[start:end]`, and the
header is empty exactly when `start = end`. -/
theorem claim_C9_detect_region_invariants (content : List Nat) :
    (detectHeaderBlock content).2.1 ≤ (detectHeaderBlock content).2.2
    ∧ (detectHeaderBlock content).2.2 ≤ content.length
    ∧ (detectHeaderBlock content).1 =
        (content.drop (detectHeaderBlock content).2.1).take
          ((detectHeaderBlock content).2.2 - (detectHeaderBlock content).2.1)
    ∧ ((detectHeaderBlock content).1 = [] ↔
        (detectHeaderBlock content).2.1 = (detectHeaderBlock content).2.2) := by
  rw [detectHeaderBlock]
  simp only [skipBlankAndDirectives]
  set p0 := findShebangEnd content with hp0
  set pos := p0 + skipBD (content.drop p0) with hpos
  have hp0le : p0 ≤ content.length := findShebangEnd_le content
  have hskip : skipBD (content.drop p0) ≤ (content.drop p0).length := skipBD_le _
  have hposle : pos ≤ content.length := by
    rw [hpos]
    simp only [List.length_drop] at hskip
    omega
  set hdr := collectHeader (content.drop pos) with hhdr
  have hpre : hdr <+: content.drop pos := collectHeader_isPrefix _
  by_cases he : hdr.isEmpty
  · simp only [he, if_pos]
    simp
  · simp only [he, Bool.false_eq_true, if_false]
    have hlen : hdr.length ≤ (content.drop pos).length := hpre.length_le
    simp only [List.length_drop] at hlen
    have hne : hdr ≠ [] := by
      intro h
      rw [h] at he
      simp at he
    refine ⟨by omega, by omega, ?_, ?_⟩
    · have : pos + hdr.length - pos = hdr.length := by omega
      rw [this]
      exact (List.prefix_iff_eq_take.mp hpre)
    · constructor
      · intro h; exact absurd h hne
      · intro h
        have : hdr.length = 0 := by omega
        exact List.length_eq_zero.mp this

/-!
Semantic matching: characterization and claims about it.
-/

theorem headerSemanticallyMatches_eq (a b : List Nat) :
    headerSemanticallyMatches a b
      = ((!a.isEmpty) && (!b.isEmpty) && (sanitize a == sanitize b)) := by
  cases ha : a.isEmpty <;> cases hb : b.isEmpty <;>
    simp [headerSemanticallyMatches, ha, hb]

theorem headerSemanticallyMatches_iff (a b : List Nat) :
    headerSemanticallyMatches a b = true ↔ a ≠ [] ∧ b ≠ [] ∧ sanitize a = sanitize b := by
  rw [headerSemanticallyMatches_eq]
  simp [List.isEmpty_iff, and_assoc]

/-- Claim C1 counterexample: the headers `"// a  b\n"` and `"// a b\n"` are
non-empty, differ in literal text (an extra space byte) that is not a date,
email, hash token or year, yet `headerSemanticallyMatches` returns true —
refuting the claim that any other literal-text difference yields false. -/
theorem claim_C1_counterexample :
    headerSemanticallyMatches (strBytes ("// a  b\n")) (strBytes ("// a b\n")) = true
    ∧ strBytes ("// a  b\n") ≠ strBytes ("// a b\n") := by
  refine ⟨by decide, by decide⟩

/-- Claim C1 as amended: `headerSemanticallyMatches` returns true exactly when
both headers are non-empty and their masked forms (dates, times, emails,
hash tokens and years replaced by placeholders, whitespace collapsed and
trimmed) are byte-equal.  Pairs identical except for same-class token
substitutions therefore match (date, email, hash and year instances below),
and a differing word yields false — but whitespace-only differences also
match, so differing in other literal text does not imply false. -/
theorem claim_C1_amended :
    (∀ a b, headerSemanticallyMatches a b = true
      ↔ a ≠ [] ∧ b ≠ [] ∧ sanitize a = sanitize b)
    ∧ headerSemanticallyMatches (strBytes ("// on 2020-01-01\n"))
        (strBytes ("// on 1999-12-31\n")) = true
    ∧ headerSemanticallyMatches (strBytes ("// by a@b.co\n"))
        (strBytes ("// by x@y.org\n")) = true
    ∧ headerSemanticallyMatches (strBytes ("// rev deadbeef1\n"))
        (strBytes ("// rev 0123abc45\n")) = true
    ∧ headerSemanticallyMatches (strBytes ("// (c) 1999\n"))
        (strBytes ("// (c) 2024\n")) = true
    ∧ headerSemanticallyMatches (strBytes ("// License MIT\n"))
        (strBytes ("// License BSD\n")) = false := by
  refine ⟨headerSemanticallyMatches_iff, by decide, by decide, by decide, by decide, by decide⟩

/-- Claim C10: on non-empty inputs, `headerSemanticallyMatches` is reflexive,
symmetric, and transitive. -/
theorem claim_C10_equivalence (a b c : List Nat)
    (ha : a ≠ []) (hb : b ≠ []) (hc : c ≠ []) :
    headerSemanticallyMatches a a = true
    ∧ headerSemanticallyMatches a b = headerSemanticallyMatches b a
    ∧ (headerSemanticallyMatches a b = true → headerSemanticallyMatches b c = true →
        headerSemanticallyMatches a c = true) := by
  refine ⟨?_, ?_, ?_⟩
  · exact (headerSemanticallyMatches_iff a a).mpr ⟨ha, ha, rfl⟩
  · cases hab : headerSemanticallyMatches a b with
    | true =>
      obtain ⟨_, _, he⟩ := (headerSemanticallyMatches_iff a b).mp hab
      exact ((headerSemanticallyMatches_iff b a).mpr ⟨hb, ha, he.symm⟩).symm
    | false =>
      cases hba : headerSemanticallyMatches b a with
      | true =>
        obtain ⟨_, _, he⟩ := (headerSemanticallyMatches_iff b a).mp hba
        rw [(headerSemanticallyMatches_iff a b).mpr ⟨ha, hb, he.symm⟩] at hab
        exact hab.symm
      | false => rfl
  · intro hab hbc
    obtain ⟨_, _, he1⟩ := (headerSemanticallyMatches_iff a b).mp hab
    obtain ⟨_, _, he2⟩ := (headerSemanticallyMatches_iff b c).mp hbc
    exact (headerSemanticallyMatches_iff a c).mpr ⟨ha, hc, he1.trans he2⟩

/-- Witness for C10 at concrete non-empty headers whose pairwise matches hold. -/
theorem claim_C10_equivalence_witness :
    headerSemanticallyMatches (strBytes ("// x 2020-01-01\n")) (strBytes ("// x 2020-01-01\n")) = true
    ∧ headerSemanticallyMatches (strBytes ("// x 2020-01-01\n")) (strBytes ("// x 1999-02-03\n"))
      = headerSemanticallyMatches (strBytes ("// x 1999-02-03\n")) (strBytes ("// x 2020-01-01\n"))
    ∧ (headerSemanticallyMatches (strBytes ("// x 2020-01-01\n")) (strBytes ("// x 1999-02-03\n")) = true →
        headerSemanticallyMatches (strBytes ("// x 1999-02-03\n")) (strBytes ("// x 2021-03-04\n")) = true →
        headerSemanticallyMatches (strBytes ("// x 2020-01-01\n")) (strBytes ("// x 2021-03-04\n")) = true) :=
  claim_C10_equivalence (strBytes ("// x 2020-01-01\n")) (strBytes ("// x 1999-02-03\n"))
    (strBytes ("// x 2021-03-04\n")) (by decide) (by decide) (by decide)

/-!
Claims about the locator's empty-block reporting and the decision policy.
-/

/-- Claim C4 counterexample: for the content of a shebang line and one code
line, the accumulated comment block at the stop position is empty and the
stop position is 4, yet `detectHeaderBlock` returns offsets `(0, 0)` and not
the stop position. -/
theorem claim_C4_counterexample :
    collectHeader ((strBytes ("#!a\nb\n")).drop
        (skipBlankAndDirectives (strBytes ("#!a\nb\n"))
          (findShebangEnd (strBytes ("#!a\nb\n"))))) = []
    ∧ skipBlankAndDirectives (strBytes ("#!a\nb\n"))
        (findShebangEnd (strBytes ("#!a\nb\n"))) = 4
    ∧ (detectHeaderBlock (strBytes ("#!a\nb\n"))).2.1 ≠
        skipBlankAndDirectives (strBytes ("#!a\nb\n"))
          (findShebangEnd (strBytes ("#!a\nb\n"))) := by
  refine ⟨by decide, by decide, by decide⟩

/-- Claim C4 as amended: when the accumulated leading comment block at the
stop position is empty, `detectHeaderBlock` reports no header as the
zero-length region `(0, 0)` — at offset zero, not at the stop position. -/
theorem claim_C4_amended (content : List Nat)
    (h : collectHeader (content.drop
        (skipBlankAndDirectives content (findShebangEnd content))) = []) :
    detectHeaderBlock content = ([], 0, 0) := by
  rw [detectHeaderBlock]
  simp [skipBlankAndDirectives] at h
  simp [skipBlankAndDirectives, h]

/-- Witness for the amended C4 at a concrete input with stop position 4. -/
theorem claim_C4_amended_witness :
    detectHeaderBlock (strBytes ("#!a\nb\n")) = ([], 0, 0) :=
  claim_C4_amended (strBytes ("#!a\nb\n")) (by decide)

/-- Claim C8: for every content failing the UTF-8 validity check, the result
action is `none`, the file bytes are unchanged (no write), and the warning is
set exactly when the force option is enabled. -/
theorem claim_C8_non_utf8 (force fix respectGit gitSome touched : Bool)
    (templates : List (List Nat)) (content : List Nat)
    (h : utf8Valid content = false) :
    processFile false true force fix respectGit gitSome touched templates content
      = (FileAction.act_none, content, force) := by
  rw [processFile]
  simp [h]

/-- Witness for C8: a single 0xFF byte is invalid UTF-8; with force enabled
the warning is set. -/
theorem claim_C8_non_utf8_witness :
    processFile false true true true false false false [strBytes ("// H\n")] [255]
      = (FileAction.act_none, [255], true) :=
  claim_C8_non_utf8 true true false false false [strBytes ("// H\n")] [255] (by decide)

theorem findMatchingTemplate_sem (hdr : List Nat) :
    ∀ ts t, findMatchingTemplate hdr ts = some t →
      headerSemanticallyMatches hdr t = true := by
  intro ts
  induction ts with
  | nil => intro t h; simp [findMatchingTemplate] at h
  | cons x xs ih =>
    intro t h
    rw [findMatchingTemplate] at h
    by_cases hx : headerSemanticallyMatches hdr x = true
    · simp only [hx, if_pos] at h
      cases h
      exact hx
    · simp only [hx, if_neg, Bool.false_eq_true] at h
      exact ih t h

/-- Claim C2: in fix mode with respect-git enabled and a git collaborator
present, when the detected header semantically matches some rendered rule and
the Touched signal is false, the per-file processing returns action `none`
and the file bytes are unchanged — regardless of whether the match is
byte-identical. -/
theorem claim_C2_untouched_skip (force : Bool) (templates : List (List Nat))
    (content t : List Nat)
    (hu : utf8Valid content = true)
    (hm : findMatchingTemplate (detectHeaderBlock content).1 templates = some t) :
    processFile false true force true true true false templates content
      = (FileAction.act_none, content, false) := by
  have hsem := findMatchingTemplate_sem (detectHeaderBlock content).1 templates t hm
  have htne : templates ≠ [] := by
    intro h
    rw [h] at hm
    simp [findMatchingTemplate] at hm
  have hie : templates.isEmpty = false := by
    cases templates with
    | nil => exact absurd rfl htne
    | cons x xs => rfl
  rw [processFile]
  simp only [hu, hie, hm, Bool.not_true, Bool.false_eq_true, if_false]
  rw [handleMatchedHeader]
  by_cases he : (detectHeaderBlock content).1 == t
  · simp [he]
  · simp only [he, Bool.false_eq_true, if_false]
    by_cases hst : headersStructurallyEqual (detectHeaderBlock content).1 t
    · simp [hst]
    · simp only [hst, Bool.false_eq_true, if_false]
      simp [hsem, shouldSkipDueToGit]

/-- Witness for C2 at the stale-date scenario of the specification. -/
theorem claim_C2_untouched_skip_witness :
    processFile false true false true true true false [strBytes ("// d 2024-02-02\n")]
        (strBytes ("// d 2020-01-01\ncode\n"))
      = (FileAction.act_none, strBytes ("// d 2020-01-01\ncode\n"), false) :=
  claim_C2_untouched_skip false [strBytes ("// d 2024-02-02\n")]
    (strBytes ("// d 2020-01-01\ncode\n")) (strBytes ("// d 2024-02-02\n"))
    (by decide) (by decide)

/-- The action that claim C7 predicts for check mode, stated from the claim's
words: `none` on a semantic match (or any early-exit branch), `replace` when a
non-matching header region existed, `insert` when no header was detected. -/
def checkModeAction (isTmplPath accepted : Bool) (templates : List (List Nat))
    (content : List Nat) : FileAction :=
  if isTmplPath then FileAction.act_none
  else if !accepted then FileAction.act_none
  else if !utf8Valid content then FileAction.act_none
  else if templates.isEmpty then FileAction.act_none
  else if (findMatchingTemplate (detectHeaderBlock content).1 templates).isSome then
    FileAction.act_none
  else if !(detectHeaderBlock content).1.isEmpty then FileAction.act_replace
  else FileAction.act_insert

/-- Claim C7: in check mode the per-file processing never changes the file
bytes, and the reported action is exactly the one the claim describes:
`none` on a semantic match (or early exit), `replace` when a non-matching
header region existed, `insert` when no header was detected. -/
theorem claim_C7_check_mode (isTmplPath accepted force respectGit gitSome touched : Bool)
    (templates : List (List Nat)) (content : List Nat) :
    (processFile isTmplPath accepted force false respectGit gitSome touched
        templates content).2.1 = content
    ∧ (processFile isTmplPath accepted force false respectGit gitSome touched
        templates content).1
      = checkModeAction isTmplPath accepted templates content := by
  rw [processFile, checkModeAction]
  by_cases h1 : isTmplPath = true
  · simp [h1]
  · simp only [h1, Bool.false_eq_true, if_false]
    by_cases h2 : accepted = true
    · simp only [h2, Bool.not_true, Bool.false_eq_true, if_false]
      by_cases h3 : utf8Valid content = true
      · simp only [h3, Bool.not_true, Bool.false_eq_true, if_false]
        by_cases h4 : templates.isEmpty = true
        · simp [h4]
        · simp only [h4, Bool.false_eq_true, if_false]
          cases hm : findMatchingTemplate (detectHeaderBlock content).1 templates with
          | some t =>
            simp only [hm, Option.isSome_some, if_pos]
            rw [handleMatchedHeader]
            simp
          | none =>
            simp only [hm, Option.isSome_none, Bool.false_eq_true, if_false]
            rw [handleNoMatch]
            simp only [h4, Bool.false_eq_true, if_false]
            by_cases h5 : (detectHeaderBlock content).1.isEmpty = true
            · simp [h5]
            · simp [h5]
      · simp only [Bool.not_eq_true] at h3
        simp [h3]
    · simp only [Bool.not_eq_true] at h2
      simp [h2]

theorem takeLine_no_newline_append (u : List Nat) (q : List Nat) (hnu : (10 : Nat) ∉ u) :
    takeLine (u ++ 10 :: q) = (u ++ [10], q) := by
  induction u with
  | nil => simp [takeLine]
  | cons a t ih =>
    have ha : a ≠ 10 := by
      intro h
      exact hnu (h ▸ List.mem_cons_self a t)
    have ht : (10 : Nat) ∉ t := fun h => hnu (List.mem_cons_of_mem a h)
    simp [takeLine, ha, ih ht]

theorem exists_newline_split (s : List Nat) (h : (10 : Nat) ∈ s) :
    ∃ u q, s = u ++ 10 :: q ∧ (10 : Nat) ∉ u := by
  induction s with
  | nil => simp at h
  | cons a t ih =>
    by_cases ha : a = 10
    · exact ⟨[], t, by simp [ha], by simp⟩
    · have : (10 : Nat) ∈ t := by
        cases List.mem_cons.mp h with
        | inl he => exact absurd he.symm ha
        | inr ht => exact ht
      obtain ⟨u, q, hq, hnu⟩ := ih this
      refine ⟨a :: u, q, by simp [hq], ?_⟩
      intro hm
      cases List.mem_cons.mp hm with
      | inl he => exact ha he.symm
      | inr hu => exact hnu hu

theorem take_prefix_helper (X B T : List Nat) (k : Nat) (hX : X.length = k) :
    (X ++ ([10] ++ (B ++ T))).take (k + 1 + B.length) = X ++ ([10] ++ B) := by
  subst hX
  have h1 : X.length + 1 + B.length = X.length + (1 + B.length) := by omega
  rw [h1, List.take_append]
  congr 1
  rw [show 1 + B.length = B.length + 1 from by omega]
  simp only [List.cons_append, List.nil_append, List.take_succ_cons, List.take_left]

theorem upsertAssemble_take (scanTop : List Nat → Nat)
    (content header preserved : List Nat) (k : Nat)
    (hk : findShebangEnd content = k) (h0 : 0 < k) (hkle : k ≤ content.length) :
    (upsertAssemble scanTop content header preserved).take (k + 1 + header.length)
      = content.take k ++ ([10] ++ header) := by
  rw [upsertAssemble]
  simp only [hk, h0, if_pos]
  simp only [List.append_assoc]
  exact take_prefix_helper _ header _ k (List.length_take_of_le hkle)

theorem beginsWith_shebang_split (u q : List Nat)
    (h : beginsWith (strBytes ("#!")) (u ++ 10 :: q) = true) :
    ∃ v, u = 35 :: 33 :: v := by
  match u with
  | [] => simp [beginsWith, strBytes] at h
  | [a] => simp [beginsWith, strBytes] at h
  | a :: b :: v =>
    simp only [List.cons_append, strBytes, beginsWith] at h
    simp [beginsWith] at h
    obtain ⟨ha, hb⟩ := h
    subst ha
    subst hb
    exact ⟨v, rfl⟩

/-- Claim C5 counterexample: for the newline-less content `"#!a"`, the
rewritten output is `"#!a\n// H\n\n"`, whose second line is the header
itself — there is no blank line between the shebang line and the header. -/
theorem claim_C5_counterexample :
    upsertHeaderBeforeDirectives (strBytes ("#!a")) (strBytes ("// H\n")) true
      = strBytes ("#!a\n// H\n\n")
    ∧ firstLine ((strBytes ("#!a\n// H\n\n")).drop 4) ≠ strBytes ("\n") := by
  refine ⟨by decide, by decide⟩

/-- Claim C5 as amended: for every content beginning with a newline-terminated
shebang line, the rewrite planner's output begins with that shebang line,
then one newline (an empty line), then the inserted or replaced header. The
second conjunct states that the shebang segment is a full line ending in a
newline byte. -/
theorem claim_C5_amended (content header : List Nat) (p : Bool)
    (h1 : beginsWith (strBytes ("#!")) content = true)
    (h2 : (10 : Nat) ∈ content) :
    (upsertHeaderBeforeDirectives content header p).take
        (findShebangEnd content + 1 + header.length)
      = content.take (findShebangEnd content) ++ ([10] ++ header)
    ∧ (content.take (findShebangEnd content)).getLast? = some 10 := by
  obtain ⟨u, q, hsplit, hnu⟩ := exists_newline_split content h2
  have htl : takeLine content = (u ++ [10], q) := by
    rw [hsplit]
    exact takeLine_no_newline_append u q hnu
  have hk : findShebangEnd content = u.length + 1 := by
    rw [findShebangEnd, if_pos h1, htl]
    simp
  have hkle : findShebangEnd content ≤ content.length := findShebangEnd_le content
  have htake : content.take (findShebangEnd content) = u ++ [10] := by
    rw [hk, hsplit]
    rw [show u ++ 10 :: q = (u ++ [10]) ++ q by simp]
    rw [show u.length + 1 = (u ++ [10]).length by simp]
    exact List.take_left (u ++ [10]) q
  have hlast : (content.take (findShebangEnd content)).getLast? = some 10 := by
    rw [htake]
    exact List.getLast?_concat u
  refine ⟨?_, hlast⟩
  rw [upsertHeaderBeforeDirectives]
  by_cases hbr : (!(detectHeaderBlock content).1.isEmpty
      && decide (findShebangEnd content ≤ (detectHeaderBlock content).2.1)) = true
  · simp only [hbr, if_pos]
    have hstart : findShebangEnd content ≤ (detectHeaderBlock content).2.1 := by
      have := (Bool.and_eq_true _ _).mp hbr
      exact of_decide_eq_true this.2
    set st := (detectHeaderBlock content).2.1
    set en := (detectHeaderBlock content).2.2
    set c2 := content.take st ++ content.drop en with hc2
    have hc2take : c2.take (findShebangEnd content) = content.take (findShebangEnd content) := by
      rw [hc2]
      rw [List.take_append_of_le_length]
      · rw [List.take_take]
        rw [Nat.min_eq_left hstart]
      · rw [List.length_take]
        have hstle : st ≤ content.length := by
          have h9 := claim_C9_detect_region_invariants content
          omega
        omega
    set q2 := c2.drop (findShebangEnd content) with hq2
    have hc2split : c2 = (u ++ [10]) ++ q2 := by
      rw [hq2]
      conv_lhs => rw [← List.take_append_drop (findShebangEnd content) c2]
      rw [hc2take, htake]
    obtain ⟨v, hv⟩ := beginsWith_shebang_split u q (by rw [← hsplit]; exact h1)
    have hfse2 : findShebangEnd c2 = findShebangEnd content := by
      rw [findShebangEnd]
      have hbw : beginsWith (strBytes ("#!")) c2 = true := by
        rw [hc2split, hv]
        simp [beginsWith, strBytes]
      rw [if_pos hbw]
      have : takeLine c2 = (u ++ [10], q2) := by
        rw [hc2split]
        rw [show (u ++ [10]) ++ q2 = u ++ 10 :: q2 by simp]
        exact takeLine_no_newline_append u q2 hnu
      rw [this, hk]
      simp
    have hkle2 : findShebangEnd content ≤ c2.length := by
      have : (c2.take (findShebangEnd content)).length = findShebangEnd content := by
        rw [hc2take, htake, hk]
        simp
      rw [List.length_take] at this
      omega
    rw [upsertAssemble_take scanTopComments2 c2 header _ (findShebangEnd content) hfse2
      (by rw [hk]; omega) hkle2]
    rw [hc2take]
  · simp only [hbr, Bool.false_eq_true, if_false]
    rw [upsertAssemble_take scanTopComments1 content header [] (findShebangEnd content) rfl
      (by rw [hk]; omega) hkle]

/-- Witness for the amended C5 at a concrete shebang-led input. -/
theorem claim_C5_amended_witness :
    (upsertHeaderBeforeDirectives (strBytes ("#!/bin/sh\necho hi\n")) (strBytes ("# H\n")) true).take
        (findShebangEnd (strBytes ("#!/bin/sh\necho hi\n")) + 1 + (strBytes ("# H\n")).length)
      = (strBytes ("#!/bin/sh\necho hi\n")).take (findShebangEnd (strBytes ("#!/bin/sh\necho hi\n")))
        ++ ([10] ++ strBytes ("# H\n"))
    ∧ ((strBytes ("#!/bin/sh\necho hi\n")).take
        (findShebangEnd (strBytes ("#!/bin/sh\necho hi\n")))).getLast? = some 10 :=
  claim_C5_amended (strBytes ("#!/bin/sh\necho hi\n")) (strBytes ("# H\n")) true
    (by decide) (by decide)

theorem takeLine_fst_structure : ∀ P : List Nat, (takeLine P).1.getLast? = some 10 →
    ∃ u, (takeLine P).1 = u ++ [10] ∧ (10 : Nat) ∉ u ∧ P = u ++ 10 :: (takeLine P).2 := by
  intro P
  induction P with
  | nil => intro h; simp [takeLine] at h
  | cons c r ih =>
    intro h
    by_cases hc : c = 10
    · subst hc
      refine ⟨[], ?_, by simp, ?_⟩ <;> simp [takeLine]
    · have hfst : (takeLine (c :: r)).1 = c :: (takeLine r).1 := by
        simp [takeLine, hc]
      have hsnd : (takeLine (c :: r)).2 = (takeLine r).2 := by
        simp [takeLine, hc]
      rw [hfst] at h
      match hr : (takeLine r).1 with
      | [] =>
        rw [hr] at h
        simp at h
        exact absurd h hc
      | x :: xs =>
        rw [hr] at h
        rw [List.getLast?_cons_cons] at h
        obtain ⟨u, hu1, hu2, hu3⟩ := ih (by rw [hr]; exact h)
        refine ⟨c :: u, ?_, ?_, ?_⟩
        · rw [hfst, hu1]
          simp
        · intro hm
          cases List.mem_cons.mp hm with
          | inl he => exact hc he.symm
          | inr hum => exact hu2 hum
        · rw [hsnd]
          simp only [List.cons_append]
          rw [← hu3]

theorem takeLine_fst_getLast (P : List Nat) (hne : P ≠ []) (hl : P.getLast? = some 10) :
    (takeLine P).1.getLast? = some 10 := by
  induction P with
  | nil => exact absurd rfl hne
  | cons c r ih =>
    by_cases hc : c = 10
    · subst hc
      by_cases hr : r = []
      · simp [takeLine]
      · simp [takeLine]
    · have hfst : (takeLine (c :: r)).1 = c :: (takeLine r).1 := by
        simp [takeLine, hc]
      match r with
      | [] =>
        simp at hl
        exact absurd hl hc
      | x :: xs =>
        have hl2 : (x :: xs).getLast? = some 10 := by
          simp only [List.getLast?_cons_cons] at hl
          exact hl
        have hih := ih (by simp) hl2
        rw [hfst]
        have hfr := takeLine_fst_length_pos x xs
        match hfr2 : (takeLine (x :: xs)).1 with
        | [] => rw [hfr2] at hfr; simp at hfr
        | y :: ys =>
          rw [hfr2] at hih
          simp only [List.getLast?_cons_cons]
          exact hih

theorem takeLine_append_of_ends (P Q : List Nat)
    (h : (takeLine P).1.getLast? = some 10) :
    takeLine (P ++ Q) = ((takeLine P).1, (takeLine P).2 ++ Q) := by
  obtain ⟨u, hu1, hu2, hu3⟩ := takeLine_fst_structure P h
  conv_lhs => rw [hu3]
  rw [show (u ++ 10 :: (takeLine P).2) ++ Q = u ++ 10 :: ((takeLine P).2 ++ Q) by simp]
  rw [takeLine_no_newline_append u _ hu2, hu1]

theorem block_snd_ends (P : List Nat) (hne : P ≠ []) (hP : P.getLast? = some 10) :
    (takeLine P).2 = [] ∨ (takeLine P).2.getLast? = some 10 := by
  by_cases hs : (takeLine P).2 = []
  · exact Or.inl hs
  · refine Or.inr ?_
    rw [← hP]
    conv_rhs => rw [← takeLine_fst_append_snd P]
    exact (List.getLast?_append_of_ne_nil (takeLine P).1 hs).symm

theorem skipBD_append_block : ∀ n P Q, P.length ≤ n →
    (linesOf P).all (fun l => (trimSpace l).isEmpty || isGoPreambleDirective l) = true →
    P = [] ∨ P.getLast? = some 10 →
    skipBD (P ++ Q) = P.length + skipBD Q := by
  intro n
  induction n with
  | zero =>
    intro P Q h _ _
    have : P = [] := List.length_eq_zero.mp (Nat.le_zero.mp h)
    subst this
    simp
  | succ n ih =>
    intro P Q hlen hall hend
    match P with
    | [] => simp
    | c :: r =>
      have hne : (c :: r) ≠ [] := by simp
      have hend2 : (c :: r).getLast? = some 10 := by
        cases hend with
        | inl h => exact absurd h hne
        | inr h => exact h
      have hfl : (takeLine (c :: r)).1.getLast? = some 10 :=
        takeLine_fst_getLast (c :: r) hne hend2
      have hta := takeLine_append_of_ends (c :: r) Q hfl
      rw [linesOf_cons, List.all_cons] at hall
      have hok := (Bool.and_eq_true _ _).mp hall
      have hlines : ((c :: r) ++ Q) = c :: (r ++ Q) := by simp
      rw [hlines]
      rw [skipBD_cons]
      have htaf : (takeLine (c :: (r ++ Q))).1 = (takeLine (c :: r)).1 := by
        rw [← hlines, hta]
      have htas : (takeLine (c :: (r ++ Q))).2 = (takeLine (c :: r)).2 ++ Q := by
        rw [← hlines, hta]
      rw [htaf, htas]
      rw [if_pos hok.1]
      have hsndlt := takeLine_snd_length_lt c r
      simp only [List.length_cons] at hsndlt hlen
      rw [ih (takeLine (c :: r)).2 Q (by omega) hok.2
        (block_snd_ends (c :: r) hne hend2)]
      have hsplit := takeLine_length_split (c :: r)
      simp only [List.length_cons] at hsplit
      simp only [List.length_cons]
      omega

theorem collectHeader_append_block : ∀ n P Q, P.length ≤ n →
    (linesOf P).all (fun l =>
      !(!(trimSpace l).isEmpty && !isLineComment l) && !isGoPreambleDirective l) = true →
    P = [] ∨ P.getLast? = some 10 →
    collectHeader (P ++ Q) = P ++ collectHeader Q := by
  intro n
  induction n with
  | zero =>
    intro P Q h _ _
    have : P = [] := List.length_eq_zero.mp (Nat.le_zero.mp h)
    subst this
    simp
  | succ n ih =>
    intro P Q hlen hall hend
    match P with
    | [] => simp
    | c :: r =>
      have hne : (c :: r) ≠ [] := by simp
      have hend2 : (c :: r).getLast? = some 10 := by
        cases hend with
        | inl h => exact absurd h hne
        | inr h => exact h
      have hfl : (takeLine (c :: r)).1.getLast? = some 10 :=
        takeLine_fst_getLast (c :: r) hne hend2
      have hta := takeLine_append_of_ends (c :: r) Q hfl
      rw [linesOf_cons, List.all_cons] at hall
      have hok := (Bool.and_eq_true _ _).mp hall
      have hok2 := (Bool.and_eq_true _ _).mp hok.1
      have hlines : ((c :: r) ++ Q) = c :: (r ++ Q) := by simp
      rw [hlines]
      rw [collectHeader_cons]
      have htaf : (takeLine (c :: (r ++ Q))).1 = (takeLine (c :: r)).1 := by
        rw [← hlines, hta]
      have htas : (takeLine (c :: (r ++ Q))).2 = (takeLine (c :: r)).2 ++ Q := by
        rw [← hlines, hta]
      rw [htaf, htas]
      obtain ⟨hc1, hc2⟩ := (Bool.and_eq_true _ _).mp hok.1
      have hc1f : (!(trimSpace (takeLine (c :: r)).1).isEmpty
          && !isLineComment (takeLine (c :: r)).1) = false := by
        rw [Bool.not_eq_true'] at hc1
        exact hc1
      have hc2f : isGoPreambleDirective (takeLine (c :: r)).1 = false := by
        rw [Bool.not_eq_true'] at hc2
        exact hc2
      rw [hc1f, hc2f]
      simp only [Bool.false_eq_true, if_false]
      have hsndlt := takeLine_snd_length_lt c r
      simp only [List.length_cons] at hsndlt hlen
      rw [ih (takeLine (c :: r)).2 Q (by omega) hok.2
        (block_snd_ends (c :: r) hne hend2)]
      rw [← List.append_assoc, takeLine_fst_append_snd]

theorem code_line_facts (l : List Nat) (h : isLineComment l = false) :
    (trimSpace l).isEmpty = false
    ∧ beginsWith (strBytes ("//")) (trimSpace l) = false
    ∧ beginsWith (strBytes ("#")) (trimSpace l) = false
    ∧ beginsWith (strBytes (";")) (trimSpace l) = false
    ∧ beginsWith (strBytes ("/*")) (trimSpace l) = false
    ∧ beginsWith (strBytes ("*")) (trimSpace l) = false
    ∧ isGoPreambleDirective l = false := by
  rw [isLineComment] at h
  by_cases h1 : (trimSpace l).isEmpty = true
  · simp [h1] at h
  · simp only [h1, Bool.false_eq_true, if_false] at h
    by_cases h2 : (beginsWith (strBytes ("//")) (trimSpace l)
        || beginsWith (strBytes ("#")) (trimSpace l)
        || beginsWith (strBytes (";")) (trimSpace l)) = true
    · simp [h2] at h
    · simp only [h2, Bool.false_eq_true, if_false] at h
      by_cases h3 : (beginsWith (strBytes ("/*")) (trimSpace l)
          || beginsWith (strBytes ("*")) (trimSpace l)
          || beginsWith (strBytes ("*/")) (trimSpace l)) = true
      · simp [h3] at h
      · simp only [Bool.or_eq_true, not_or, Bool.not_eq_true] at h2 h3
        have hb1 := h2.1.1
        have hb2 := h2.1.2
        have hb3 := h2.2
        have hb4 := h3.1.1
        have hb5 := h3.1.2
        refine ⟨by simpa using h1, hb1, hb2, hb3, hb4, hb5, ?_⟩
        rw [isGoPreambleDirective]
        simp only [hb1, hb2, Bool.not_false, if_pos, Bool.false_eq_true, if_false]

theorem isLineComment_empty : isLineComment ([] : List Nat) = true := by decide

theorem dropWhile_append_last (p : Nat → Bool) (y : List Nat) (a : Nat) (ha : p a = false) :
    List.dropWhile p (y ++ [a]) = List.dropWhile p y ++ [a] := by
  induction y with
  | nil => simp [List.dropWhile, ha]
  | cons b t ih =>
    by_cases hb : p b
    · simp only [List.cons_append, List.dropWhile_cons_of_pos hb]
      exact ih
    · simp [List.dropWhile_cons_of_neg hb]

theorem trim_head_nonspace (a : Nat) (x : List Nat) (ha : isSpaceGoB a = false) :
    ∃ w, trimSpace (a :: x) = a :: w := by
  rw [trimSpace]
  rw [List.dropWhile_cons_of_neg (by rw [ha]; simp)]
  rw [show (a :: x).reverse = x.reverse ++ [a] by simp]
  rw [dropWhile_append_last isSpaceGoB x.reverse a ha]
  exact ⟨(List.dropWhile isSpaceGoB x.reverse).reverse, by simp⟩

theorem shebang_starts (s : List Nat) (h : beginsWith (strBytes ("#!")) s = true) :
    ∃ r, s = 35 :: 33 :: r := by
  match s with
  | [] => simp [beginsWith, strBytes] at h
  | [a] => simp [beginsWith, strBytes] at h
  | a :: b :: r =>
    simp [beginsWith, strBytes] at h
    exact ⟨r, by rw [h.1, h.2]⟩

theorem noShebang_of_code_first (s : List Nat)
    (hr : isLineComment (firstLine s) = false) :
    beginsWith (strBytes ("#!")) s = false := by
  by_cases h : beginsWith (strBytes ("#!")) s = true
  · exfalso
    obtain ⟨r, hsr⟩ := shebang_starts s h
    subst hsr
    have hfl : firstLine (35 :: 33 :: r) = 35 :: (takeLine (33 :: r)).1 := by
      simp [firstLine, takeLine]
    obtain ⟨w, hw⟩ := trim_head_nonspace 35 (takeLine (33 :: r)).1 (by decide)
    rw [isLineComment, hfl, hw] at hr
    have hbw : beginsWith (strBytes ("#")) (35 :: w) = true := by
      simp [beginsWith, strBytes]
    simp [hbw] at hr
  · simp only [Bool.not_eq_true] at h
    exact h

theorem firstLine_cons (c : Nat) (r : List Nat) :
    firstLine (c :: r) = (takeLine (c :: r)).1 := rfl

theorem skipBD_zero_of_code_first (s : List Nat)
    (hr : isLineComment (firstLine s) = false) : skipBD s = 0 := by
  match s with
  | [] => simp [skipBD, skipBDF]
  | c :: r =>
    rw [skipBD_cons]
    obtain ⟨he, _, _, _, _, _, hd⟩ := code_line_facts (firstLine (c :: r)) hr
    rw [firstLine_cons] at he hd
    rw [he, hd]
    simp

theorem collectHeader_zero_of_code_first (s : List Nat)
    (hr : isLineComment (firstLine s) = false) : collectHeader s = [] := by
  match s with
  | [] => simp [collectHeader, collectHeaderF]
  | c :: r =>
    rw [collectHeader_cons]
    obtain ⟨he, _, _, _, _, _, _⟩ := code_line_facts (firstLine (c :: r)) hr
    rw [firstLine_cons] at he hr
    rw [he, hr]
    simp

theorem scanTop1_zero_of_code_first (s : List Nat)
    (hr : isLineComment (firstLine s) = false) :
    scanTopComments1 s = 0 := by
  match s with
  | [] => simp [scanTopComments1, scanTopF]
  | c :: r =>
    rw [scanTopComments1, scanTopF_run_cons]
    obtain ⟨he, hb1, hb2, _, hb4, hb5, _⟩ := code_line_facts (firstLine (c :: r)) hr
    rw [firstLine_cons] at he hb1 hb2 hb4 hb5
    rw [scanTop1Line]
    simp [he, hb1, hb2, hb4, hb5]

theorem detect_zero_of_code_first (s : List Nat)
    (hr : isLineComment (firstLine s) = false) :
    detectHeaderBlock s = ([], 0, 0) := by
  have h0 : findShebangEnd s = 0 := by
    rw [findShebangEnd, noShebang_of_code_first s hr]
    simp
  have hpos : skipBlankAndDirectives s (findShebangEnd s) = 0 := by
    rw [skipBlankAndDirectives, h0]
    simp only [List.drop_zero, Nat.zero_add]
    exact skipBD_zero_of_code_first s hr
  rw [detectHeaderBlock, hpos]
  simp only [List.drop_zero]
  rw [collectHeader_zero_of_code_first s hr]
  simp

theorem utf8ValidF_of_ascii : ∀ fuel s, s.length ≤ fuel →
    s.all (fun c => decide (c < 128)) = true → utf8ValidF fuel s = true := by
  intro fuel
  induction fuel with
  | zero =>
    intro s h _
    have : s = [] := List.length_eq_zero.mp (Nat.le_zero.mp h)
    subst this
    rfl
  | succ f ih =>
    intro s hlen hall
    match s with
    | [] => rfl
    | c :: r =>
      rw [List.all_cons] at hall
      obtain ⟨hc, hrest⟩ := (Bool.and_eq_true _ _).mp hall
      rw [utf8ValidF]
      rw [if_pos (of_decide_eq_true hc)]
      simp only [List.length_cons] at hlen
      exact ih r (by omega) hrest

theorem utf8Valid_of_ascii (s : List Nat)
    (h : s.all (fun c => decide (c < 128)) = true) : utf8Valid s = true :=
  utf8ValidF_of_ascii s.length s (le_refl _) h

theorem beginsWith_append_of_longer : ∀ p P Q : List Nat, p.length ≤ P.length →
    beginsWith p (P ++ Q) = beginsWith p P := by
  intro p
  induction p with
  | nil => intro P Q _; simp [beginsWith]
  | cons a ps ih =>
    intro P Q hlen
    match P with
    | [] => simp at hlen
    | b :: t =>
      simp only [List.cons_append, beginsWith]
      simp only [List.length_cons] at hlen
      rw [List.append_eq]
      rw [ih t Q (by omega)]

/-- Claim C6: for content consisting of the directive line `// +build linux`,
a blank line, and then code (a non-comment first line), fix mode inserts: the
output is the rendered header, exactly one blank line, the directive line,
exactly one blank line, then the remainder unchanged. -/
theorem claim_C6_directive_relocation (T rest : List Nat) (rg gs tou : Bool)
    (hT : T.getLast? = some 10)
    (hr : isLineComment (firstLine rest) = false)
    (hAT : T.all (fun c => decide (c < 128)) = true)
    (hAr : rest.all (fun c => decide (c < 128)) = true) :
    processFile false true false true rg gs tou [T]
        (strBytes ("// +build linux\n\n") ++ rest)
      = (FileAction.act_insert,
        T ++ [10] ++ strBytes ("// +build linux") ++ [10, 10] ++ rest, false) := by
  set D := strBytes ("// +build linux\n\n") with hD
  set content := D ++ rest with hcontent
  have hDlen : D.length = 17 := by rw [hD]; decide
  have hutf : utf8Valid content = true := by
    apply utf8Valid_of_ascii
    rw [hcontent, List.all_append]
    rw [show D.all (fun c => decide (c < 128)) = true from by rw [hD]; decide, hAr]
    rfl
  have hskip : skipBD content = 17 := by
    rw [hcontent]
    rw [skipBD_append_block D.length D rest (le_refl _)
      (by rw [hD]; decide) (by rw [hD]; right; decide)]
    rw [skipBD_zero_of_code_first rest hr, hDlen]
  have hfse : findShebangEnd content = 0 := by
    rw [findShebangEnd, hcontent]
    rw [beginsWith_append_of_longer _ D rest (by rw [hDlen]; decide)]
    rw [show beginsWith (strBytes ("#!")) D = false from by rw [hD]; decide]
    simp
  have hdrop : content.drop 17 = rest := by
    rw [hcontent, ← hDlen]
    exact List.drop_left D rest
  have hdetect : detectHeaderBlock content = ([], 0, 0) := by
    rw [detectHeaderBlock]
    simp only [skipBlankAndDirectives, hfse, List.drop_zero, Nat.zero_add, hskip, hdrop]
    rw [collectHeader_zero_of_code_first rest hr]
    simp
  have hupsert : upsertHeaderBeforeDirectives content T true
      = T ++ [10] ++ strBytes ("// +build linux") ++ [10, 10] ++ rest := by
    rw [upsertHeaderBeforeDirectives, hdetect]
    simp only [List.isEmpty_nil, Bool.not_true, Bool.false_and, Bool.false_eq_true, if_false]
    rw [upsertAssemble]
    simp only [hfse, List.drop_zero, List.take_zero, hskip, hdrop]
    simp only [lt_self_iff_false, if_false]
    rw [scanTop1_zero_of_code_first rest hr]
    rw [show content.take 17 = D from by rw [hcontent, ← hDlen]; exact List.take_left D rest]
    rw [show trimCrNl D = strBytes ("// +build linux") from by rw [hD]; decide]
    rw [hT]
    simp only [if_pos]
    rw [show (strBytes ("// +build linux")).isEmpty = false from by decide]
    simp only [List.take_zero, Nat.add_zero, hdrop]
    simp only [Bool.false_eq_true, if_false]
    rw [show (trimCrNl ([] : List Nat)).isEmpty = true from by decide]
    rw [show (trimSpace ([] : List Nat)).isEmpty = true from by decide]
    simp [List.append_assoc]
  clear_value D content
  have hfm : findMatchingTemplate ([] : List Nat) [T] = Option.none := by
    rw [findMatchingTemplate]
    rw [show headerSemanticallyMatches [] T = false from by
      rw [headerSemanticallyMatches_eq]; simp]
    simp [findMatchingTemplate]
  rw [processFile]
  simp only [Bool.false_eq_true, if_false, Bool.not_true, hutf, hdetect,
    List.isEmpty_cons, hfm]
  rw [handleNoMatch]
  simp only [List.isEmpty_cons, Bool.false_eq_true, if_false, if_pos, List.isEmpty_nil,
    List.headD_cons]
  rw [hupsert]

/-- Witness for C6 at the concrete scenario of the specification. -/
theorem claim_C6_directive_relocation_witness :
    processFile false true false true false false false [strBytes ("// H\n")]
        (strBytes ("// +build linux\n\n") ++ strBytes ("package main\n"))
      = (FileAction.act_insert,
        strBytes ("// H\n") ++ [10] ++ strBytes ("// +build linux") ++ [10, 10]
          ++ strBytes ("package main\n"), false) :=
  claim_C6_directive_relocation (strBytes ("// H\n")) (strBytes ("package main\n"))
    false false false (by decide) (by decide) (by decide) (by decide)

/-- Claim C3 counterexample: starting from `"// note\ncode\n"` with template
`"// H\n"`, the first fix run replaces and relocates the old header below the
new one; running the decision again on the result replaces again and changes
the bytes (the header is duplicated), so fix mode is not idempotent. -/
theorem claim_C3_counterexample :
    (processFile false true false true false false false [strBytes ("// H\n")]
        ((processFile false true false true false false false [strBytes ("// H\n")]
          (strBytes ("// note\ncode\n"))).2.1)).1 ≠ FileAction.act_none
    ∧ (processFile false true false true false false false [strBytes ("// H\n")]
        ((processFile false true false true false false false [strBytes ("// H\n")]
          (strBytes ("// note\ncode\n"))).2.1)).2.1
      ≠ (processFile false true false true false false false [strBytes ("// H\n")]
          (strBytes ("// note\ncode\n"))).2.1 := by
  refine ⟨by decide, by decide⟩

/-!
Invariance of the masking passes under a trailing newline.  A newline byte is
neither a word byte nor part of any token pattern, so appending one to the
input changes no token match; the whitespace collapse and final trim then
absorb it.  These lemmas culminate in `sanitize_append_nl`.
-/

/-- A pattern fragment maps a trailing newline through unchanged. -/
def EatInv (f : Eat) : Prop :=
  ∀ s, f (s ++ [10]) = Option.map (fun r => r ++ [10]) (f s)

/-- A pattern fragment returns a suffix no longer than its input. -/
def EatLe (f : Eat) : Prop := ∀ s r, f s = some r → r.length ≤ s.length

/-- A pattern fragment consumes at least one byte. -/
def EatLt (f : Eat) : Prop := ∀ s r, f s = some r → r.length < s.length

theorem eatDigits_inv : ∀ n, EatInv (eatDigits n) := by
  intro n
  induction n with
  | zero => intro s; rfl
  | succ n ih =>
    intro s
    match s with
    | [] =>
      show eatDigits (n + 1) [10] = Option.map _ Option.none
      rw [eatDigits]
      norm_num [isDigitB]
    | c :: r =>
      show eatDigits (n + 1) (c :: (r ++ [10])) = Option.map _ (eatDigits (n + 1) (c :: r))
      rw [eatDigits, eatDigits]
      by_cases hc : isDigitB c = true
      · simp only [hc, if_pos]
        exact ih r
      · simp [hc]

theorem eatDigits_le : ∀ n, EatLe (eatDigits n) := by
  intro n
  induction n with
  | zero =>
    intro s r h
    rw [eatDigits] at h
    cases h
    exact le_refl _
  | succ n ih =>
    intro s r h
    match s with
    | [] => rw [eatDigits] at h; cases h
    | c :: t =>
      rw [eatDigits] at h
      by_cases hc : isDigitB c = true
      · simp only [hc, if_pos] at h
        have := ih t r h
        simp only [List.length_cons]
        omega
      · simp [hc] at h

theorem eatDigits_lt (n : Nat) (hn : 0 < n) : EatLt (eatDigits n) := by
  intro s r h
  match n, s with
  | m + 1, [] => rw [eatDigits] at h; cases h
  | m + 1, c :: t =>
    rw [eatDigits] at h
    by_cases hc : isDigitB c = true
    · simp only [hc, if_pos] at h
      have := eatDigits_le m t r h
      simp only [List.length_cons]
      omega
    · simp [hc] at h

theorem eatSep_inv : EatInv eatSep := by
  intro s
  match s with
  | [] => rfl
  | c :: r =>
    show eatSep (c :: (r ++ [10])) = Option.map _ (eatSep (c :: r))
    rw [eatSep, eatSep]
    by_cases hc : isSepB c = true
    · simp [hc]
    · simp [hc]

theorem eatSep_le : EatLe eatSep := by
  intro s r h
  match s with
  | [] => rw [eatSep] at h; cases h
  | c :: t =>
    rw [eatSep] at h
    by_cases hc : isSepB c = true
    · simp only [hc, if_pos, Option.some.injEq] at h
      subst h
      simp
    · simp [hc] at h

theorem eatByte_inv (t : Nat) (ht : t ≠ 10) : EatInv (eatByte t) := by
  intro s
  match s with
  | [] =>
    show eatByte t [10] = Option.map _ Option.none
    rw [eatByte]
    simp [Ne.symm ht]
  | c :: r =>
    show eatByte t (c :: (r ++ [10])) = Option.map _ (eatByte t (c :: r))
    rw [eatByte, eatByte]
    by_cases hc : c = t
    · simp [hc]
    · simp [hc]

theorem eatByte_le (t : Nat) : EatLe (eatByte t) := by
  intro s r h
  match s with
  | [] => rw [eatByte] at h; cases h
  | c :: u =>
    rw [eatByte] at h
    by_cases hc : c = t
    · simp only [hc, if_pos, Option.some.injEq] at h
      subst h
      simp
    · simp [hc] at h

theorem eatYearPfx_inv : EatInv eatYearPfx := by
  intro s
  match s with
  | [] => rfl
  | [a] =>
    show eatYearPfx [a, 10] = Option.map _ Option.none
    rw [eatYearPfx]
    have hno : ¬((a = 49 ∧ (10 : Nat) = 57) ∨ (a = 50 ∧ (10 : Nat) = 48)) := by omega
    simp [hno]
  | a :: b :: r =>
    show eatYearPfx (a :: b :: (r ++ [10])) = Option.map _ (eatYearPfx (a :: b :: r))
    rw [eatYearPfx, eatYearPfx]
    by_cases hab : (a = 49 ∧ b = 57) ∨ (a = 50 ∧ b = 48)
    · simp [hab]
    · simp [hab]

theorem eatYearPfx_lt : EatLt eatYearPfx := by
  intro s r h
  match s with
  | [] => rw [eatYearPfx] at h; cases h
  | [a] => rw [eatYearPfx] at h; cases h
  | a :: b :: t =>
    rw [eatYearPfx] at h
    by_cases hab : (a = 49 ∧ b = 57) ∨ (a = 50 ∧ b = 48)
    · simp only [hab, if_pos, Option.some.injEq] at h
      subst h
      simp only [List.length_cons]
      omega
    · simp [hab] at h

theorem eatSeq_inv (f g : Eat) (hf : EatInv f) (hg : EatInv g) : EatInv (eatSeq f g) := by
  intro s
  rw [eatSeq, eatSeq, hf s]
  cases hfs : f s with
  | none => rfl
  | some r =>
    show (Option.map (fun r => r ++ [10]) (some r)).bind g = _
    rw [show Option.map (fun r => r ++ [10]) (some r) = some (r ++ [10]) from rfl]
    show g (r ++ [10]) = _
    exact hg r

theorem eatSeq_le (f g : Eat) (hf : EatLe f) (hg : EatLe g) : EatLe (eatSeq f g) := by
  intro s r h
  rw [eatSeq] at h
  cases hfs : f s with
  | none => rw [hfs] at h; cases h
  | some m =>
    rw [hfs] at h
    show r.length ≤ s.length
    exact le_trans (hg m r h) (hf s m hfs)

theorem eatSeq_lt_left (f g : Eat) (hf : EatLt f) (hg : EatLe g) : EatLt (eatSeq f g) := by
  intro s r h
  rw [eatSeq] at h
  cases hfs : f s with
  | none => rw [hfs] at h; cases h
  | some m =>
    rw [hfs] at h
    exact lt_of_le_of_lt (hg m r h) (hf s m hfs)

theorem eatAlt_inv (f g : Eat) (hf : EatInv f) (hg : EatInv g) : EatInv (eatAlt f g) := by
  intro s
  rw [eatAlt, eatAlt, hf s]
  cases hfs : f s with
  | none =>
    show (match Option.map (fun r => r ++ [10]) Option.none with
      | some r => some r
      | Option.none => g (s ++ [10])) = _
    show g (s ++ [10]) = _
    exact hg s
  | some r => rfl

theorem eatAlt_lt (f g : Eat) (hf : EatLt f) (hg : EatLt g) : EatLt (eatAlt f g) := by
  intro s r h
  rw [eatAlt] at h
  cases hfs : f s with
  | none => rw [hfs] at h; exact hg s r h
  | some m =>
    rw [hfs] at h
    cases h
    exact hf s r hfs

theorem boundaryEndOk_append (r : List Nat) : boundaryEndOk (r ++ [10]) = boundaryEndOk r := by
  match r with
  | [] => rfl
  | c :: t => rfl

theorem guardEnd_inv (f : Eat) (hf : EatInv f) : EatInv (guardEnd f) := by
  intro s
  rw [guardEnd, guardEnd, hf s]
  cases hfs : f s with
  | none => rfl
  | some r =>
    show (if boundaryEndOk (r ++ [10]) = true then some (r ++ [10]) else Option.none) = _
    rw [boundaryEndOk_append r]
    by_cases hb : boundaryEndOk r = true
    · simp [hb]
    · simp [hb]

theorem guardEnd_lt (f : Eat) (hf : EatLt f) : EatLt (guardEnd f) := by
  intro s r h
  rw [guardEnd] at h
  cases hfs : f s with
  | none => rw [hfs] at h; cases h
  | some m =>
    rw [hfs] at h
    by_cases hb : boundaryEndOk m = true
    · simp only [hb, if_pos, Option.some.injEq] at h
      subst h
      exact hf s m hfs
    · simp [hb] at h

theorem guardEnd_le (f : Eat) (hf : EatLe f) : EatLe (guardEnd f) := by
  intro s r h
  rw [guardEnd] at h
  cases hfs : f s with
  | none => rw [hfs] at h; cases h
  | some m =>
    rw [hfs] at h
    by_cases hb : boundaryEndOk m = true
    · simp only [hb, if_pos, Option.some.injEq] at h
      subst h
      exact hf s m hfs
    · simp [hb] at h

theorem maybeSep_inv (b : Bool) : EatInv (maybeSep b) := by
  cases b
  · intro s; rfl
  · exact eatSep_inv

theorem maybeSep_le (b : Bool) : EatLe (maybeSep b) := by
  cases b
  · intro s r h
    rw [maybeSep] at h
    simp at h
    subst h
    exact le_refl _
  · exact eatSep_le

theorem dateEatFull_inv (b1 b2 : Bool) : EatInv (dateEatFull b1 b2) :=
  eatSeq_inv _ _ (eatDigits_inv 4) (eatSeq_inv _ _ (maybeSep_inv b1)
    (eatSeq_inv _ _ (eatDigits_inv 2) (eatSeq_inv _ _ (maybeSep_inv b2) (eatDigits_inv 2))))

theorem dateEatFull_lt (b1 b2 : Bool) : EatLt (dateEatFull b1 b2) :=
  eatSeq_lt_left _ _ (eatDigits_lt 4 (by omega))
    (eatSeq_le _ _ (maybeSep_le b1)
      (eatSeq_le _ _ (eatDigits_le 2) (eatSeq_le _ _ (maybeSep_le b2) (eatDigits_le 2))))

theorem dateEat_inv : EatInv dateEat :=
  eatAlt_inv _ _ (guardEnd_inv _ (dateEatFull_inv true true))
    (eatAlt_inv _ _ (guardEnd_inv _ (dateEatFull_inv true false))
      (eatAlt_inv _ _ (guardEnd_inv _ (dateEatFull_inv false true))
        (guardEnd_inv _ (dateEatFull_inv false false))))

theorem dateEat_lt : EatLt dateEat :=
  eatAlt_lt _ _ (guardEnd_lt _ (dateEatFull_lt true true))
    (eatAlt_lt _ _ (guardEnd_lt _ (dateEatFull_lt true false))
      (eatAlt_lt _ _ (guardEnd_lt _ (dateEatFull_lt false true))
        (guardEnd_lt _ (dateEatFull_lt false false))))

theorem timeEat_inv : EatInv timeEat :=
  guardEnd_inv _ (eatSeq_inv _ _ (eatDigits_inv 2) (eatSeq_inv _ _ (eatByte_inv 58 (by omega))
    (eatSeq_inv _ _ (eatDigits_inv 2) (eatSeq_inv _ _ (eatByte_inv 58 (by omega))
      (eatDigits_inv 2)))))

theorem timeEat_lt : EatLt timeEat :=
  guardEnd_lt _ (eatSeq_lt_left _ _ (eatDigits_lt 2 (by omega))
    (eatSeq_le _ _ (eatByte_le 58) (eatSeq_le _ _ (eatDigits_le 2)
      (eatSeq_le _ _ (eatByte_le 58) (eatDigits_le 2)))))

theorem yearEat_inv : EatInv yearEat :=
  guardEnd_inv _ (eatSeq_inv _ _ eatYearPfx_inv (eatDigits_inv 2))

theorem yearEat_lt : EatLt yearEat :=
  guardEnd_lt _ (eatSeq_lt_left _ _ eatYearPfx_lt (eatDigits_le 2))

/-- A matcher is unaffected by a trailing newline appended to the input. -/
def MInv (m : Option Nat → List Nat → Option Nat) : Prop :=
  ∀ prev s, m prev (s ++ [10]) = m prev s

/-- A matcher returns a length between 1 and the input length. -/
def MBound (m : Option Nat → List Nat → Option Nat) : Prop :=
  ∀ prev s k, m prev s = some k → 1 ≤ k ∧ k ≤ s.length

theorem mkBoundedMatcher_minv (f : Eat) (hf : EatInv f) :
    MInv (mkBoundedMatcher f) := by
  intro prev s
  rw [mkBoundedMatcher, mkBoundedMatcher]
  by_cases hb : boundaryStartOk prev = true
  · simp only [hb, if_pos]
    rw [hf s]
    cases hfs : f s with
    | none => rfl
    | some r =>
      have hred : Option.map (fun r => r ++ [10]) (some r) = some (r ++ [10]) := rfl
      rw [hred]
      simp only []
      congr 1
      simp only [List.length_append, List.length_cons, List.length_nil]
      omega
  · simp [hb]

theorem mkBoundedMatcher_mbound (f : Eat) (hf : EatLt f) :
    MBound (mkBoundedMatcher f) := by
  intro prev s k h
  rw [mkBoundedMatcher] at h
  by_cases hb : boundaryStartOk prev = true
  · simp only [hb, if_pos] at h
    cases hfs : f s with
    | none => rw [hfs] at h; cases h
    | some r =>
      rw [hfs] at h
      simp only [Option.some.injEq] at h
      subst h
      have := hf s r hfs
      omega
  · simp [hb] at h

theorem dateM_minv : MInv dateM := mkBoundedMatcher_minv dateEat dateEat_inv

theorem dateM_mbound : MBound dateM := mkBoundedMatcher_mbound dateEat dateEat_lt

theorem timeM_minv : MInv timeM := mkBoundedMatcher_minv timeEat timeEat_inv

theorem timeM_mbound : MBound timeM := mkBoundedMatcher_mbound timeEat timeEat_lt

theorem yearM_minv : MInv yearM := mkBoundedMatcher_minv yearEat yearEat_inv

theorem yearM_mbound : MBound yearM := mkBoundedMatcher_mbound yearEat yearEat_lt

theorem takeWhile_append_last (p : Nat → Bool) (s : List Nat) (a : Nat) (ha : p a = false) :
    (s ++ [a]).takeWhile p = s.takeWhile p := by
  induction s with
  | nil => simp [List.takeWhile, ha]
  | cons c t ih =>
    by_cases hc : p c
    · simp only [List.cons_append, List.takeWhile_cons_of_pos hc]
      rw [ih]
    · simp [List.takeWhile_cons_of_neg hc]

theorem drop_append_last (s : List Nat) (a : Nat) (m : Nat) (hm : m ≤ s.length) :
    (s ++ [a]).drop m = s.drop m ++ [a] := by
  rw [List.drop_append_of_le_length hm]

theorem hashM_minv : MInv hashM := by
  intro prev s
  rw [hashM, hashM]
  by_cases hb : boundaryStartOk prev = true
  · simp only [hb, if_pos]
    rw [takeWhile_append_last isHexB s 10 (by decide)]
    have hm : (s.takeWhile isHexB).length ≤ s.length := by
      have := List.takeWhile_prefix (l := s) (p := isHexB)
      exact this.length_le
    rw [drop_append_last s 10 _ hm]
    rw [boundaryEndOk_append]
  · simp [hb]

theorem hashM_mbound : MBound hashM := by
  intro prev s k h
  rw [hashM] at h
  by_cases hb : boundaryStartOk prev = true
  · simp only [hb, if_pos] at h
    by_cases hc : 7 ≤ (s.takeWhile isHexB).length ∧ (s.takeWhile isHexB).length ≤ 40
        ∧ boundaryEndOk (s.drop (s.takeWhile isHexB).length) = true
    · simp only [hc.1, hc.2.1, hc.2.2, and_true, true_and, if_pos, Option.some.injEq] at h
      subst h
      have hle : (s.takeWhile isHexB).length ≤ s.length :=
        (List.takeWhile_prefix (l := s) (p := isHexB)).length_le
      exact ⟨by omega, hle⟩
    · rw [if_neg hc] at h
      cases h
  · simp [hb] at h

theorem bestDotAux_spec (mr : List Nat) : ∀ j0 j, bestDotAux mr j0 = some j →
    dotOk mr j = true ∧ 1 ≤ j := by
  intro j0
  induction j0 with
  | zero => intro j h; rw [bestDotAux] at h; cases h
  | succ n ih =>
    intro j h
    rw [bestDotAux] at h
    by_cases hd : dotOk mr (n + 1) = true
    · simp only [hd, if_pos, Option.some.injEq] at h
      subst h
      exact ⟨hd, by omega⟩
    · simp only [hd, Bool.false_eq_true, if_false] at h
      exact ih j h

theorem dotOk_lt (mr : List Nat) (j : Nat) (h : dotOk mr j = true) : j < mr.length := by
  rw [dotOk] at h
  have h1 : (mr.get? j == some 46) = true := by
    rcases (Bool.and_eq_true _ _).mp h with ⟨h12, _⟩
    rcases (Bool.and_eq_true _ _).mp h12 with ⟨ha, _⟩
    exact ha
  have h2 : mr.get? j = some 46 := by
    exact beq_iff_eq.mp h1
  exact List.get?_eq_some.mp h2 |>.1

theorem emailDomainLen_le (r2 : List Nat) (dl : Nat) (h : emailDomainLen r2 = some dl) :
    dl ≤ r2.length := by
  rw [emailDomainLen] at h
  cases hb : bestDot (r2.takeWhile isDomainB) with
  | none => rw [hb] at h; cases h
  | some j =>
    rw [hb] at h
    simp only [Option.some.injEq] at h
    subst h
    obtain ⟨hdot, _⟩ := bestDotAux_spec (r2.takeWhile isDomainB) _ j hb
    have hj : j < (r2.takeWhile isDomainB).length := dotOk_lt _ j hdot
    have hmr : (r2.takeWhile isDomainB).length ≤ r2.length :=
      (List.takeWhile_prefix (l := r2) (p := isDomainB)).length_le
    have hlet : (((r2.takeWhile isDomainB).drop (j + 1)).takeWhile isAlphaB).length
        ≤ ((r2.takeWhile isDomainB).drop (j + 1)).length :=
      (List.takeWhile_prefix (p := isAlphaB)).length_le
    simp only [List.length_drop] at hlet
    omega

theorem emailM_minv : MInv emailM := by
  intro prev s
  rw [emailM, emailM]
  rw [takeWhile_append_last isLocalB s 10 (by decide)]
  by_cases he : (s.takeWhile isLocalB).isEmpty = true
  · simp [he]
  · simp only [he, Bool.false_eq_true, if_false]
    have hle : (s.takeWhile isLocalB).length ≤ s.length :=
      (List.takeWhile_prefix (l := s) (p := isLocalB)).length_le
    rw [drop_append_last s 10 _ hle]
    cases hd : s.drop (s.takeWhile isLocalB).length with
    | nil => rfl
    | cons c r2 =>
      have hdl : ∀ z : List Nat, emailDomainLen (z ++ [10]) = emailDomainLen z := by
        intro z
        rw [emailDomainLen, emailDomainLen,
          takeWhile_append_last isDomainB z 10 (by decide)]
      split
      · rename_i r2a heq
        rw [List.cons_append, List.cons.injEq] at heq
        obtain ⟨hc, hr⟩ := heq
        subst hc
        rw [← hr, hdl r2]
      · rename_i hno
        split
        · rename_i r2b heq2
          rw [List.cons.injEq] at heq2
          refine (hno (r2 ++ [10]) ?_).elim
          rw [List.cons_append, heq2.1]
        · rfl

theorem emailM_mbound : MBound emailM := by
  intro prev s k h
  rw [emailM] at h
  by_cases he : (s.takeWhile isLocalB).isEmpty = true
  · simp [he] at h
  · simp only [he, Bool.false_eq_true, if_false] at h
    have hle : (s.takeWhile isLocalB).length ≤ s.length :=
      (List.takeWhile_prefix (l := s) (p := isLocalB)).length_le
    split at h
    · rename_i r2 heq
      split at h
      · rename_i dl hdl
        simp only [Option.some.injEq] at h
        subst h
        have hdlle := emailDomainLen_le r2 dl hdl
        have hlen : (s.drop (s.takeWhile isLocalB).length).length
            = s.length - (s.takeWhile isLocalB).length := List.length_drop _ _
        rw [heq] at hlen
        simp only [List.length_cons] at hlen
        exact ⟨by omega, by omega⟩
      · cases h
    · cases h

theorem matcher_none_nil (m : Option Nat → List Nat → Option Nat)
    (hb : MBound m) (prev : Option Nat) : m prev [] = Option.none := by
  cases hm : m prev [] with
  | none => rfl
  | some k =>
    have := hb prev [] k hm
    simp at this
    omega

theorem runMask_append_nl (m : Option Nat → List Nat → Option Nat) (repl : List Nat)
    (hinv : MInv m) (hb : MBound m) :
    ∀ n prev s, s.length ≤ n →
      runMask m repl prev (s ++ [10]) = runMask m repl prev s ++ [10] := by
  intro n
  induction n with
  | zero =>
    intro prev s h
    have : s = [] := List.length_eq_zero.mp (Nat.le_zero.mp h)
    subst this
    rw [show ([] : List Nat) ++ [10] = [10] from rfl, runMask_cons]
    rw [show m prev [10] = m prev ([] ++ [10]) from rfl, hinv prev [], matcher_none_nil m hb]
    rfl
  | succ n ih =>
    intro prev s hlen
    match s with
    | [] =>
      rw [show ([] : List Nat) ++ [10] = [10] from rfl, runMask_cons]
      rw [show m prev [10] = m prev ([] ++ [10]) from rfl, hinv prev [], matcher_none_nil m hb]
      rfl
    | c :: rest =>
      rw [show (c :: rest) ++ [10] = c :: (rest ++ [10]) from rfl]
      rw [runMask_cons, runMask_cons]
      rw [show m prev (c :: (rest ++ [10])) = m prev ((c :: rest) ++ [10]) from rfl,
        hinv prev (c :: rest)]
      cases hm : m prev (c :: rest) with
      | none =>
        simp only []
        simp only [List.length_cons] at hlen
        rw [ih (some c) rest (by omega)]
        rfl
      | some k =>
        simp only []
        obtain ⟨hk1, hk2⟩ := hb prev (c :: rest) k hm
        simp only [List.length_cons] at hk2 hlen
        have hmax : max k 1 = k := by omega
        rw [hmax]
        have htake : (c :: (rest ++ [10])).take k = (c :: rest).take k := by
          rw [show c :: (rest ++ [10]) = (c :: rest) ++ [10] from rfl]
          rw [List.take_append_of_le_length (by simp; omega)]
        have hdrop : (rest ++ [10]).drop (k - 1) = rest.drop (k - 1) ++ [10] := by
          rw [List.drop_append_of_le_length (by omega)]
        rw [htake, hdrop]
        rw [ih ((c :: rest).take k).getLast? (rest.drop (k - 1))
          (by simp only [List.length_drop]; omega)]
        rw [List.append_assoc]

theorem maskDate_append_nl (s : List Nat) : maskDate (s ++ [10]) = maskDate s ++ [10] :=
  runMask_append_nl dateM _ dateM_minv dateM_mbound s.length Option.none s (le_refl _)

theorem maskTime_append_nl (s : List Nat) : maskTime (s ++ [10]) = maskTime s ++ [10] :=
  runMask_append_nl timeM _ timeM_minv timeM_mbound s.length Option.none s (le_refl _)

theorem maskEmail_append_nl (s : List Nat) : maskEmail (s ++ [10]) = maskEmail s ++ [10] :=
  runMask_append_nl emailM _ emailM_minv emailM_mbound s.length Option.none s (le_refl _)

theorem maskHash_append_nl (s : List Nat) : maskHash (s ++ [10]) = maskHash s ++ [10] :=
  runMask_append_nl hashM _ hashM_minv hashM_mbound s.length Option.none s (le_refl _)

theorem maskYear_append_nl (s : List Nat) : maskYear (s ++ [10]) = maskYear s ++ [10] :=
  runMask_append_nl yearM _ yearM_minv yearM_mbound s.length Option.none s (le_refl _)

theorem dropWhile_append_nilcase (p : Nat → Bool) (y z : List Nat)
    (h : y.dropWhile p = []) : (y ++ z).dropWhile p = z.dropWhile p := by
  induction y with
  | nil => simp
  | cons c t ih =>
    by_cases hc : p c
    · rw [List.dropWhile_cons_of_pos hc] at h
      simp only [List.cons_append, List.dropWhile_cons_of_pos hc]
      exact ih h
    · rw [List.dropWhile_cons_of_neg hc] at h
      cases h

theorem dropWhile_append_conscase (p : Nat → Bool) (y z : List Nat)
    (h : ¬y.dropWhile p = []) : (y ++ z).dropWhile p = y.dropWhile p ++ z := by
  induction y with
  | nil => simp at h
  | cons c t ih =>
    by_cases hc : p c
    · rw [List.dropWhile_cons_of_pos hc] at h
      simp only [List.cons_append, List.dropWhile_cons_of_pos hc]
      exact ih h
    · simp [List.dropWhile_cons_of_neg hc]

theorem collapseWs_append_nl : ∀ n s, s.length ≤ n →
    collapseWs (s ++ [10]) = collapseWs s
    ∨ collapseWs (s ++ [10]) = collapseWs s ++ [32] := by
  intro n
  induction n with
  | zero =>
    intro s h
    have : s = [] := List.length_eq_zero.mp (Nat.le_zero.mp h)
    subst this
    right
    rfl
  | succ n ih =>
    intro s hlen
    match s with
    | [] => right; rfl
    | c :: rest =>
      rw [show (c :: rest) ++ [10] = c :: (rest ++ [10]) from rfl]
      rw [collapseWs_cons, collapseWs_cons]
      by_cases hc : isWsReB c = true
      · simp only [hc, if_pos]
        by_cases hall : rest.dropWhile isWsReB = []
        · left
          rw [dropWhile_append_nilcase isWsReB rest [10] hall, hall]
          rfl
        · rw [dropWhile_append_conscase isWsReB rest [10] hall]
          have hdlen : (rest.dropWhile isWsReB).length ≤ rest.length :=
            dropWhile_length_le isWsReB rest
          simp only [List.length_cons] at hlen
          cases ih (rest.dropWhile isWsReB) (by omega) with
          | inl he => left; rw [he]
          | inr he => right; rw [he]; simp
      · simp only [hc, Bool.false_eq_true, if_false]
        simp only [List.length_cons] at hlen
        cases ih rest (by omega) with
        | inl he => left; rw [he]
        | inr he => right; rw [he]; simp

theorem trimSpace_append_space (x : List Nat) : trimSpace (x ++ [32]) = trimSpace x := by
  rw [trimSpace, trimSpace]
  by_cases h : x.dropWhile isSpaceGoB = []
  · rw [dropWhile_append_nilcase isSpaceGoB x [32] h, h]
    rfl
  · rw [dropWhile_append_conscase isSpaceGoB x [32] h]
    have hrev : (x.dropWhile isSpaceGoB ++ [32]).reverse
        = 32 :: (x.dropWhile isSpaceGoB).reverse := by simp
    rw [hrev]
    rw [List.dropWhile_cons_of_pos (by decide)]

/-- Masking is invariant under a trailing newline: the appended newline is
not part of any token match, is collapsed into trailing whitespace, and is
removed by the final trim. -/
theorem sanitize_append_nl (s : List Nat) : sanitize (s ++ [10]) = sanitize s := by
  rw [sanitize, sanitize]
  rw [maskDate_append_nl, maskTime_append_nl, maskEmail_append_nl, maskHash_append_nl,
    maskYear_append_nl]
  set y := maskYear (maskHash (maskEmail (maskTime (maskDate s))))
  cases collapseWs_append_nl y.length y (le_refl _) with
  | inl h => rw [h]
  | inr h => rw [h, trimSpace_append_space]

theorem skipBD_zero (s : List Nat) (hne : s ≠ [])
    (h1 : (trimSpace (takeLine s).1).isEmpty = false)
    (h2 : isGoPreambleDirective (takeLine s).1 = false) : skipBD s = 0 := by
  match s with
  | [] => exact absurd rfl hne
  | c :: r =>
    rw [skipBD_cons, h1, h2]
    simp

theorem length_ge_two (T : List Nat) (hT10 : T.getLast? = some 10)
    (hTfl : (trimSpace (firstLine T)).isEmpty = false) : 2 ≤ T.length := by
  match T with
  | [] => cases hT10
  | [c] =>
    simp only [List.getLast?_singleton, Option.some.injEq] at hT10
    subst hT10
    simp [firstLine, takeLine, trimSpace, isSpaceGoB] at hTfl
  | a :: b :: t => simp

theorem trimCrNlRight_append_nl (x : List Nat) :
    trimCrNlRight (x ++ [10]) = trimCrNlRight x := by
  rw [trimCrNlRight, trimCrNlRight]
  have hrev : (x ++ [10]).reverse = 10 :: x.reverse := by simp
  rw [hrev, List.dropWhile_cons_of_pos (by decide)]

theorem linesOf_append_block : ∀ n P Q, P.length ≤ n → (P = [] ∨ P.getLast? = some 10) →
    linesOf (P ++ Q) = linesOf P ++ linesOf Q := by
  intro n
  induction n with
  | zero =>
    intro P Q h _
    have : P = [] := List.length_eq_zero.mp (Nat.le_zero.mp h)
    subst this
    simp [linesOf, linesOfF]
  | succ n ih =>
    intro P Q hlen hend
    match P with
    | [] => simp [linesOf, linesOfF]
    | c :: r =>
      have hne : (c :: r) ≠ [] := by simp
      have hend2 : (c :: r).getLast? = some 10 := by
        cases hend with
        | inl h => exact absurd h hne
        | inr h => exact h
      have hfl : (takeLine (c :: r)).1.getLast? = some 10 :=
        takeLine_fst_getLast (c :: r) hne hend2
      have hta := takeLine_append_of_ends (c :: r) Q hfl
      have hlines : ((c :: r) ++ Q) = c :: (r ++ Q) := by simp
      rw [hlines, linesOf_cons, linesOf_cons]
      have htaf : (takeLine (c :: (r ++ Q))).1 = (takeLine (c :: r)).1 := by
        rw [← hlines, hta]
      have htas : (takeLine (c :: (r ++ Q))).2 = (takeLine (c :: r)).2 ++ Q := by
        rw [← hlines, hta]
      rw [htaf, htas]
      have hsndlt := takeLine_snd_length_lt c r
      simp only [List.length_cons] at hsndlt hlen
      rw [ih (takeLine (c :: r)).2 Q (by omega) (block_snd_ends (c :: r) hne hend2)]
      simp

theorem collectOK_of_comment (l : List Nat) (hl : isLineComment l = true)
    (hd : isGoPreambleDirective l = false) :
    (!(!(trimSpace l).isEmpty && !isLineComment l) && !isGoPreambleDirective l) = true := by
  rw [hl, hd]
  simp

/-- Claim C3 as amended: fix mode is idempotent for a file with no leading
comment, directive, blank or shebang line (its first line is code) and a
rendered template made of non-directive comment lines whose first line is not
blank, does not open a shebang, and which ends with a newline: the first run
inserts the header followed by one blank line, and a second run returns
action `none` with byte-identical content. -/
theorem claim_C3_amended (T C : List Nat) (rg gs tou : Bool)
    (hT10 : T.getLast? = some 10)
    (hTsh : beginsWith (strBytes ("#!")) T = false)
    (hTfl : (trimSpace (firstLine T)).isEmpty = false)
    (hTlines : (linesOf T).all (fun l => isLineComment l && !isGoPreambleDirective l) = true)
    (hC : isLineComment (firstLine C) = false)
    (hAT : T.all (fun c => decide (c < 128)) = true)
    (hAC : C.all (fun c => decide (c < 128)) = true) :
    processFile false true false true rg gs tou [T] C
      = (FileAction.act_insert, T ++ [10] ++ C, false)
    ∧ processFile false true false true rg gs tou [T] (T ++ [10] ++ C)
      = (FileAction.act_none, T ++ [10] ++ C, false) := by
  have hTne : T ≠ [] := by
    intro h
    rw [h] at hT10
    cases hT10
  have hT2 : 2 ≤ T.length := length_ge_two T hT10 hTfl
  have hutfC : utf8Valid C = true := utf8Valid_of_ascii C hAC
  have hdetC : detectHeaderBlock C = ([], 0, 0) := detect_zero_of_code_first C hC
  have hfm0 : findMatchingTemplate ([] : List Nat) [T] = Option.none := by
    rw [findMatchingTemplate]
    rw [show headerSemanticallyMatches [] T = false from by
      rw [headerSemanticallyMatches_eq]; simp]
    simp [findMatchingTemplate]
  have hupsert : upsertHeaderBeforeDirectives C T true = T ++ [10] ++ C := by
    rw [upsertHeaderBeforeDirectives, hdetC]
    simp only [List.isEmpty_nil, Bool.not_true, Bool.false_and, Bool.false_eq_true, if_false]
    rw [upsertAssemble]
    have hfse : findShebangEnd C = 0 := by
      rw [findShebangEnd, noShebang_of_code_first C hC]
      simp
    simp only [hfse, List.drop_zero, List.take_zero]
    rw [skipBD_zero_of_code_first C hC]
    simp only [lt_self_iff_false, if_false, List.drop_zero, List.take_zero]
    rw [scanTop1_zero_of_code_first C hC]
    rw [hT10]
    simp only [if_pos, List.take_zero, Nat.add_zero, List.drop_zero]
    rw [show (trimCrNl ([] : List Nat)).isEmpty = true from by decide]
    rw [show (trimSpace ([] : List Nat)).isEmpty = true from by decide]
    simp [List.append_assoc]
  have run1 : processFile false true false true rg gs tou [T] C
      = (FileAction.act_insert, T ++ [10] ++ C, false) := by
    rw [processFile]
    simp only [Bool.false_eq_true, if_false, Bool.not_true, hutfC, hdetC,
      List.isEmpty_cons, hfm0]
    rw [handleNoMatch]
    simp only [List.isEmpty_cons, Bool.false_eq_true, if_false, if_pos, List.isEmpty_nil,
      List.headD_cons]
    rw [hupsert]
  refine ⟨run1, ?_⟩
  set W := T ++ [10] ++ C with hW
  have hWeq : W = (T ++ [10]) ++ C := by rw [hW]
  have hutfW : utf8Valid W = true := by
    apply utf8Valid_of_ascii
    rw [hW, List.all_append, List.all_append]
    rw [hAT, hAC]
    rfl
  have hT10end : (T ++ [10]).getLast? = some 10 := List.getLast?_concat T
  have hlen2 : (strBytes ("#!")).length = 2 := by decide
  have hfseW : findShebangEnd W = 0 := by
    rw [findShebangEnd, hWeq]
    rw [beginsWith_append_of_longer _ (T ++ [10]) C
      (by simp only [List.length_append, List.length_cons, List.length_nil, hlen2]; omega)]
    rw [beginsWith_append_of_longer _ T [10] (by rw [hlen2]; omega)]
    rw [hTsh]
    simp
  have hflT : (takeLine T).1.getLast? = some 10 := takeLine_fst_getLast T hTne hT10
  have hlinesW : linesOf ((T ++ [10]) ++ C) = (linesOf T ++ [[10]]) ++ linesOf C := by
    rw [linesOf_append_block (T ++ [10]).length (T ++ [10]) C (le_refl _)
      (Or.inr hT10end)]
    rw [linesOf_append_block T.length T [10] (le_refl _) (Or.inr hT10)]
    rw [show linesOf [10] = [[10]] from by decide]
  have hcollW : collectHeader W = T ++ [10] := by
    rw [hWeq]
    rw [collectHeader_append_block (T ++ [10]).length (T ++ [10]) C (le_refl _) ?_
      (Or.inr hT10end)]
    · rw [collectHeader_zero_of_code_first C hC]
      simp
    · rw [linesOf_append_block T.length T [10] (le_refl _) (Or.inr hT10)]
      rw [List.all_append]
      refine (Bool.and_eq_true _ _).mpr ⟨?_, ?_⟩
      · rw [List.all_eq_true]
        intro l hl
        rw [List.all_eq_true] at hTlines
        have := hTlines l hl
        obtain ⟨h1, h2⟩ := (Bool.and_eq_true _ _).mp this
        rw [Bool.not_eq_true'] at h2
        exact collectOK_of_comment l h1 h2
      · rw [show linesOf [10] = [[10]] from by decide]
        decide
  have hfirstW : (takeLine W).1 = (takeLine T).1 := by
    have h1 : W = T ++ ([10] ++ C) := by rw [hW]; simp
    rw [h1, takeLine_append_of_ends T ([10] ++ C) hflT]
  have hWne : W ≠ [] := by
    rw [hWeq]
    intro h
    have := congrArg List.length h
    simp at this
  have hfli : firstLine T ∈ linesOf T := by
    cases hTT : T with
    | nil => exact absurd hTT hTne
    | cons c r =>
      rw [linesOf_cons]
      simp only [firstLine]
      exact List.mem_cons_self _ _
  have hskipW : skipBD W = 0 := by
    apply skipBD_zero W hWne
    · rw [hfirstW]
      exact hTfl
    · rw [hfirstW]
      rw [List.all_eq_true] at hTlines
      have := hTlines (firstLine T) hfli
      obtain ⟨_, h2⟩ := (Bool.and_eq_true _ _).mp this
      rw [Bool.not_eq_true'] at h2
      exact h2
  have hdetW : detectHeaderBlock W = (T ++ [10], 0, (T ++ [10]).length) := by
    rw [detectHeaderBlock]
    simp only [skipBlankAndDirectives, hfseW, List.drop_zero, Nat.zero_add, hskipW]
    rw [hcollW]
    have hne2 : (T ++ [10]).isEmpty = false := by
      rw [List.isEmpty_eq_false_iff_exists_mem]
      exact ⟨10, by simp⟩
    rw [hne2]
    simp
  have hsemW : headerSemanticallyMatches (T ++ [10]) T = true := by
    rw [headerSemanticallyMatches_iff]
    refine ⟨by simp, hTne, sanitize_append_nl T⟩
  have hfmW : findMatchingTemplate (T ++ [10]) [T] = some T := by
    rw [findMatchingTemplate, hsemW]
    simp
  have hbeq : ((T ++ [10]) == T) = false := by
    rw [beq_eq_false_iff_ne]
    intro h
    have := congrArg List.length h
    simp at this
  have hstruct : headersStructurallyEqual (T ++ [10]) T = true := by
    rw [headersStructurallyEqual, trimCrNlRight_append_nl]
    exact beq_self_eq_true _
  rw [processFile]
  simp only [Bool.false_eq_true, if_false, Bool.not_true, hutfW, List.isEmpty_cons,
    hdetW, hfmW]
  rw [handleMatchedHeader]
  simp only [Bool.not_true, Bool.false_eq_true, if_false, hbeq, hstruct, if_pos]

theorem claim_C3_amended_witness :
    processFile false true false true false false false [strBytes ("// H\n")]
        (strBytes ("code\n"))
      = (FileAction.act_insert, strBytes ("// H\n") ++ [10] ++ strBytes ("code\n"), false)
    ∧ processFile false true false true false false false [strBytes ("// H\n")]
        (strBytes ("// H\n") ++ [10] ++ strBytes ("code\n"))
      = (FileAction.act_none, strBytes ("// H\n") ++ [10] ++ strBytes ("code\n"), false) :=
  claim_C3_amended (strBytes ("// H\n")) (strBytes ("code\n")) false false false
    (by decide) (by decide) (by decide) (by decide) (by decide) (by decide) (by decide)
